import Mathlib

/-!
Verification of the cursor-notifier extension and hook script.

JavaScript/TypeScript values that the program manipulates are modelled by a
shallow embedding:
 - JSON documents by the inductive type `Json` (objects are association lists
   in key-insertion order, matching the JS object model for parsed JSON, in
   which keys are unique);
 - JS strings by Lean `String` or `List Char` (one element per UTF-16 code
   unit; all the data the claims touch is in the basic plane);
 - JS numbers by `Int` (the program only stores and compares integral
   epoch-millisecond values and small integers; IEEE-754 rounding of huge
   values is outside the modelled range and noted where it could occur);
 - fallible file reads by `Option`, and the hooks.json registry file by
   `FileSt` (absent, present-but-unparseable, or parsed JSON).
-/

/-- JSON values, as produced by `JSON.parse`. Object fields are listed in
key-insertion order and keys are unique. -/
inductive Json where
  | null : Json
  | bool (b : Bool) : Json
  | num (n : Int) : Json
  | str (s : String) : Json
  | arr (elems : List Json) : Json
  | obj (fields : List (String × Json)) : Json

/-- First binding of key `k` in an association list (JS property lookup). -/
def lookupF (fields : List (String × Json)) (k : String) : Option Json :=
  match fields with
  | [] => none
  | (k', v) :: rest => if k' = k then some v else lookupF rest k

/-- JS property assignment `o[k] = v`: replace the binding in place if `k` is
present (position kept), otherwise append the new binding. -/
def setF (fields : List (String × Json)) (k : String) (v : Json) : List (String × Json) :=
  match fields with
  | [] => [(k, v)]
  | (k', v') :: rest => if k' = k then (k, v) :: rest else (k', v') :: setF rest k v

/-- JS `delete o[k]` on an object with unique keys. -/
def dropF (fields : List (String × Json)) (k : String) : List (String × Json) :=
  fields.filter (fun kv => kv.1 ≠ k)

/-- `isPlainObject`: a JS object that is neither null nor an array. -/
def isPlainObject : Json → Bool
  | .obj _ => true
  | _ => false

/-- JS property access `j.k` (undefined = `none`; only plain objects have
the string-keyed fields the program probes). -/
def getField (j : Json) (k : String) : Option Json :=
  match j with
  | .obj fs => lookupF fs k
  | _ => none

/-- Check used by `parseHooksJson`: the entry is a plain object whose
`command` field is a string. -/
def isCmdEntry (e : Json) : Bool :=
  isPlainObject e &&
    match getField e "command" with
    | some (.str _) => true
    | _ => false

/-- `parseHooksJson` (validation part): accepts iff the document is a plain
object, its `hooks` field (when present) is a plain object, and the
`hooks.afterAgentResponse` field (when present) is an array whose entries are
plain objects with a string `command`. Other event keys are not inspected. -/
def parseHooksJsonOk (j : Json) : Bool :=
  match j with
  | .obj fs =>
    (match lookupF fs "hooks" with
     | none => true
     | some (.obj hf) =>
       (match lookupF hf "afterAgentResponse" with
        | none => true
        | some (.arr entries) => entries.all isCmdEntry
        | some _ => false)
     | some _ => false)
  | _ => false

/-- The `{ command: cmd }` entry pushed by `addHookCommandIfMissing`. -/
def cmdEntry (cmd : String) : Json := .obj [("command", .str cmd)]

/-- `entry.command === command` for an arbitrary JSON entry value. -/
def entryCmdIs (e : Json) (cmd : String) : Bool :=
  match getField e "command" with
  | some (.str s) => s = cmd
  | _ => false

/-- `ensureHookArray` followed by `addHookCommandIfMissing` on one event key:
if the key holds an array already containing the command, nothing changes;
if it holds an array without the command, the command entry is appended;
otherwise the key is (re)set to a fresh array holding just the command.
The boolean reports whether anything changed. -/
def upsertEvent (hf : List (String × Json)) (k cmd : String) :
    List (String × Json) × Bool :=
  match lookupF hf k with
  | some (.arr entries) =>
    if entries.any (fun e => entryCmdIs e cmd) then (hf, false)
    else (setF hf k (.arr (entries ++ [cmdEntry cmd])), true)
  | _ => (setF hf k (.arr [cmdEntry cmd]), true)

/-- `if (typeof config.version !== "number") { config.version = 1; changed = true }`. -/
def ensureVersionNum (fields : List (String × Json)) : List (String × Json) × Bool :=
  match lookupF fields "version" with
  | some (.num _) => (fields, false)
  | _ => (setF fields "version" (.num 1), true)

/-- `if (!config.hooks || !isPlainObject(config.hooks)) { config.hooks = {}; changed = true }`
(every non-object value of `hooks`, falsy or not, is replaced). -/
def ensureHooksObject (fields : List (String × Json)) : List (String × Json) × Bool :=
  match lookupF fields "hooks" with
  | some (.obj _) => (fields, false)
  | _ => (setF fields "hooks" (.obj []), true)

/-- The fields of the `hooks` object (`const hooks = config.hooks`, which is
a plain object at its use sites). -/
def hooksFieldsOf (fields : List (String × Json)) : List (String × Json) :=
  match lookupF fields "hooks" with
  | some (.obj hf) => hf
  | _ => []

/-- Body of `upsertHooksJson` acting on the parsed config's fields: set
`version` to 1 unless it is a number, set `hooks` to `{}` unless it is a
plain object, then upsert both hook commands. Returns the final fields and
the `changed` flag. -/
def upsertHooksConfig (cmdA cmdB : String) (fields0 : List (String × Json)) :
    List (String × Json) × Bool :=
  let r1 := ensureVersionNum fields0
  let r2 := ensureHooksObject r1.1
  let hf0 := hooksFieldsOf r2.1
  let rA := upsertEvent hf0 "afterAgentResponse" cmdA
  let rB := upsertEvent rA.1 "beforeSubmitPrompt" cmdB
  (setF r2.1 "hooks" (.obj rB.1), r1.2 || r2.2 || rA.2 || rB.2)

/-- The hooks.json registry file: absent, present but not parseable as JSON,
or holding a parsed JSON document. -/
inductive FileSt where
  | absent : FileSt
  | unparseable : FileSt
  | json (j : Json) : FileSt

/-- `upsertHooksJson` (the body run under the lock): load the registry
(missing file = empty config, unreadable or structurally rejected content =
no-op), apply `upsertHooksConfig`, and write back only if something changed.
Returns the resulting file content and whether a write happened. -/
def upsertHooksJson (cmdA cmdB : String) (st : FileSt) : FileSt × Bool :=
  match st with
  | .absent =>
    let r := upsertHooksConfig cmdA cmdB []
    (if r.2 then .json (.obj r.1) else .absent, r.2)
  | .unparseable => (.unparseable, false)
  | .json j =>
    if parseHooksJsonOk j then
      match j with
      | .obj fs0 =>
        let r := upsertHooksConfig cmdA cmdB fs0
        (if r.2 then .json (.obj r.1) else .json j, r.2)
      | _ => (.json j, false)
    else (.json j, false)

/-- Entry removal filter of `removeHookCommand`: drop entries whose command
is one of the two hook commands. -/
def keepEntry (cmdA cmdB : String) (e : Json) : Bool :=
  !(entryCmdIs e cmdA || entryCmdIs e cmdB)

/-- Body of `removeHookCommand` on the parsed config's fields: filter the
tool's commands out of both event lists; report `false` (skip the write)
when neither list shrank, otherwise store both filtered lists. -/
def removeHooksConfig (cmdA cmdB : String) (fields : List (String × Json)) :
    List (String × Json) × Bool :=
  let hf := match lookupF fields "hooks" with
    | some (.obj hf) => hf
    | _ => []
  let existingAfter := match lookupF hf "afterAgentResponse" with
    | some (.arr es) => es
    | _ => []
  let existingBefore := match lookupF hf "beforeSubmitPrompt" with
    | some (.arr es) => es
    | _ => []
  let filteredAfter := existingAfter.filter (keepEntry cmdA cmdB)
  let filteredBefore := existingBefore.filter (keepEntry cmdA cmdB)
  if filteredAfter.length = existingAfter.length ∧
      filteredBefore.length = existingBefore.length then
    (fields, false)
  else
    (setF fields "hooks"
      (.obj (setF (setF hf "afterAgentResponse" (.arr filteredAfter))
        "beforeSubmitPrompt" (.arr filteredBefore))), true)

/-- `removeHookCommand` (the body run under the lock): missing file or
rejected content is a no-op; otherwise filter and write back only when a
list shrank. -/
def removeHookCommand (cmdA cmdB : String) (st : FileSt) : FileSt × Bool :=
  match st with
  | .absent => (.absent, false)
  | .unparseable => (.unparseable, false)
  | .json j =>
    if parseHooksJsonOk j then
      match j with
      | .obj fs0 =>
        let r := removeHooksConfig cmdA cmdB fs0
        (if r.2 then .json (.obj r.1) else .json j, r.2)
      | _ => (.json j, false)
    else (.json j, false)

/-- An event value that is a list of `{command: string}` objects. -/
def eventListOk : Json → Bool
  | .arr es => es.all isCmdEntry
  | _ => false

/-- Modelled from the spec: the claim's structural-validation notion — the
document is a JSON object and `hooks`, when present, is a mapping of event
name to list of `{command: string}` objects (every event key). -/
def specStructValid (j : Json) : Bool :=
  match j with
  | .obj fs =>
    (match lookupF fs "hooks" with
     | none => true
     | some (.obj hf) => hf.all (fun kv => eventListOk kv.2)
     | some _ => false)
  | _ => false

/-- A valid registry file per the spec's data model: absent, or a JSON
object whose `hooks` mapping (if present) sends every event name to a list
of `{command: string}` objects. -/
def ValidRegistryFile : FileSt → Prop
  | .absent => True
  | .unparseable => False
  | .json j => specStructValid j = true

/-- File contents on which the code's own validation fails (unreadable
JSON, or `parseHooksJson` returns null). -/
def RejectedRegistryFile : FileSt → Prop
  | .absent => False
  | .unparseable => True
  | .json j => parseHooksJsonOk j = false

/-- The event list stored for key `k`, empty when absent or not a list. -/
def eventEntries (st : FileSt) (k : String) : List Json :=
  match st with
  | .json (.obj fs) =>
    (match lookupF fs "hooks" with
     | some (.obj hf) =>
       (match lookupF hf k with
        | some (.arr es) => es
        | _ => [])
     | _ => [])
  | _ => []

/-- The list stored under key `k` in a hooks object, empty when absent or
not a list. -/
def origListOf (hf : List (String × Json)) (k : String) : List Json :=
  match lookupF hf k with
  | some (.arr es) => es
  | _ => []

theorem lookupF_setF_self (fs : List (String × Json)) (k : String) (v : Json) :
    lookupF (setF fs k v) k = some v := by
  induction fs with
  | nil => simp [setF, lookupF]
  | cons kv rest ih =>
    obtain ⟨k', v'⟩ := kv
    by_cases h : k' = k
    · simp [setF, lookupF, h]
    · simp [setF, lookupF, h, ih]

theorem lookupF_setF_ne (fs : List (String × Json)) (k k' : String) (v : Json)
    (h : k ≠ k') : lookupF (setF fs k v) k' = lookupF fs k' := by
  induction fs with
  | nil => simp [setF, lookupF, h]
  | cons kv rest ih =>
    obtain ⟨k0, v0⟩ := kv
    by_cases h0 : k0 = k
    · subst h0
      simp [setF, lookupF, h]
    · by_cases h1 : k0 = k'
      · simp [setF, lookupF, h0, h1, Ne.symm h]
      · simp [setF, lookupF, h0, h1, ih]

theorem setF_self (fs : List (String × Json)) (k : String) (v : Json)
    (h : lookupF fs k = some v) : setF fs k v = fs := by
  induction fs with
  | nil => simp [lookupF] at h
  | cons kv rest ih =>
    obtain ⟨k0, v0⟩ := kv
    by_cases h0 : k0 = k
    · subst h0
      simp [lookupF] at h
      simp [setF, h]
    · simp [lookupF, h0] at h
      simp [setF, h0, ih h]

theorem lookupF_mem (fs : List (String × Json)) (k : String) (v : Json)
    (h : lookupF fs k = some v) : (k, v) ∈ fs := by
  induction fs with
  | nil => simp [lookupF] at h
  | cons kv rest ih =>
    obtain ⟨k0, v0⟩ := kv
    by_cases h0 : k0 = k
    · subst h0
      simp [lookupF] at h
      simp [h]
    · simp [lookupF, h0] at h
      exact List.mem_cons_of_mem _ (ih h)

theorem entryCmdIs_cmdEntry (cmd : String) : entryCmdIs (cmdEntry cmd) cmd = true := by
  simp [entryCmdIs, cmdEntry, getField, lookupF]

theorem isCmdEntry_cmdEntry (cmd : String) : isCmdEntry (cmdEntry cmd) = true := by
  simp [isCmdEntry, cmdEntry, getField, lookupF, isPlainObject]

theorem upsertEvent_lookup (hf : List (String × Json)) (k cmd : String) :
    ∃ es, lookupF (upsertEvent hf k cmd).1 k = some (.arr es) ∧
      es.any (fun e => entryCmdIs e cmd) = true := by
  unfold upsertEvent
  split
  next entries heq =>
    split
    next ha => exact ⟨entries, heq, ha⟩
    next ha =>
      refine ⟨entries ++ [cmdEntry cmd], lookupF_setF_self .., ?_⟩
      simp [List.any_append, entryCmdIs_cmdEntry]
  next =>
    refine ⟨[cmdEntry cmd], lookupF_setF_self .., ?_⟩
    simp [entryCmdIs_cmdEntry]

theorem upsertEvent_preserve (hf : List (String × Json)) (k cmd k' : String)
    (h : k ≠ k') : lookupF (upsertEvent hf k cmd).1 k' = lookupF hf k' := by
  unfold upsertEvent
  split
  next entries heq =>
    split
    next => rfl
    next => exact lookupF_setF_ne _ _ _ _ h
  next => exact lookupF_setF_ne _ _ _ _ h

theorem upsertEvent_stable (hf : List (String × Json)) (k cmd : String)
    (es : List Json) (h : lookupF hf k = some (.arr es))
    (ha : es.any (fun e => entryCmdIs e cmd) = true) :
    upsertEvent hf k cmd = (hf, false) := by
  unfold upsertEvent
  rw [h]
  simp [ha]

theorem upsertEvent_unchanged (hf : List (String × Json)) (k cmd : String)
    (h : (upsertEvent hf k cmd).2 = false) : (upsertEvent hf k cmd).1 = hf := by
  unfold upsertEvent at h ⊢
  split at h
  next entries heq =>
    split at h
    next ha => simp [heq, ha]
    next => simp at h
  next => simp at h

theorem upsertEvent_all_ok (hf : List (String × Json)) (k cmd : String)
    (h : ∀ es, lookupF hf k = some (.arr es) → es.all isCmdEntry = true) :
    ∀ es', lookupF (upsertEvent hf k cmd).1 k = some (.arr es') →
      es'.all isCmdEntry = true := by
  intro es' hes
  unfold upsertEvent at hes
  split at hes
  next entries heq =>
    split at hes
    next => exact h _ hes
    next =>
      rw [lookupF_setF_self] at hes
      cases hes
      simp [List.all_append, isCmdEntry_cmdEntry, h entries heq]
  next =>
    rw [lookupF_setF_self] at hes
    cases hes
    simp [isCmdEntry_cmdEntry]

theorem upsertEvent_filter (hf : List (String × Json)) (k cmd cA cB : String)
    (hc : keepEntry cA cB (cmdEntry cmd) = false) :
    ∀ es', lookupF (upsertEvent hf k cmd).1 k = some (.arr es') →
      es'.filter (keepEntry cA cB) = (origListOf hf k).filter (keepEntry cA cB) := by
  intro es' hes
  unfold upsertEvent at hes
  split at hes
  next entries heq =>
    have horig : origListOf hf k = entries := by simp [origListOf, heq]
    split at hes
    next =>
      rw [heq] at hes
      cases hes
      rw [horig]
    next =>
      rw [lookupF_setF_self] at hes
      cases hes
      simp [List.filter_append, hc, horig]
  next hne =>
    rw [lookupF_setF_self] at hes
    cases hes
    have horig : origListOf hf k = [] := by
      unfold origListOf
      cases hl : lookupF hf k with
      | none => rfl
      | some v =>
        cases v with
        | arr es => exact absurd hl (hne es)
        | _ => rfl
    simp [hc, horig]

theorem ensureVersionNum_version (fs : List (String × Json)) :
    ∃ n, lookupF (ensureVersionNum fs).1 "version" = some (.num n) := by
  unfold ensureVersionNum
  split
  next n heq => exact ⟨n, heq⟩
  next => exact ⟨1, lookupF_setF_self ..⟩

theorem ensureVersionNum_preserve (fs : List (String × Json)) (k : String)
    (h : k ≠ "version") : lookupF (ensureVersionNum fs).1 k = lookupF fs k := by
  unfold ensureVersionNum
  split
  next => rfl
  next => exact lookupF_setF_ne _ _ _ _ (fun he => h he.symm)

theorem ensureVersionNum_stable (fs : List (String × Json)) (n : Int)
    (h : lookupF fs "version" = some (.num n)) : ensureVersionNum fs = (fs, false) := by
  unfold ensureVersionNum
  rw [h]

theorem ensureVersionNum_unchanged (fs : List (String × Json))
    (h : (ensureVersionNum fs).2 = false) : (ensureVersionNum fs).1 = fs := by
  unfold ensureVersionNum at h ⊢
  split at h
  next heq => simp [heq]
  next => simp at h

theorem ensureHooksObject_obj (fs : List (String × Json)) :
    ∃ hf, lookupF (ensureHooksObject fs).1 "hooks" = some (.obj hf) := by
  unfold ensureHooksObject
  split
  next hf heq => exact ⟨hf, heq⟩
  next => exact ⟨[], lookupF_setF_self ..⟩

theorem ensureHooksObject_preserve (fs : List (String × Json)) (k : String)
    (h : k ≠ "hooks") : lookupF (ensureHooksObject fs).1 k = lookupF fs k := by
  unfold ensureHooksObject
  split
  next => rfl
  next => exact lookupF_setF_ne _ _ _ _ (fun he => h he.symm)

theorem ensureHooksObject_stable (fs : List (String × Json))
    (hf : List (String × Json)) (h : lookupF fs "hooks" = some (.obj hf)) :
    ensureHooksObject fs = (fs, false) := by
  unfold ensureHooksObject
  rw [h]

theorem ensureHooksObject_unchanged (fs : List (String × Json))
    (h : (ensureHooksObject fs).2 = false) : (ensureHooksObject fs).1 = fs := by
  unfold ensureHooksObject at h ⊢
  split at h
  next heq => simp [heq]
  next => simp at h

theorem ensureHooksObject_was_obj (fs : List (String × Json))
    (h : (ensureHooksObject fs).2 = false) :
    ∃ hf, lookupF fs "hooks" = some (.obj hf) := by
  unfold ensureHooksObject at h
  split at h
  next hf heq => exact ⟨hf, heq⟩
  next => simp at h

/-- The config fields after the version and hooks shape fixes of
`upsertHooksJson`. -/
def upsertF2 (fs0 : List (String × Json)) : List (String × Json) :=
  (ensureHooksObject (ensureVersionNum fs0).1).1

/-- The hooks object's fields after both hook commands were upserted. -/
def upsertHf2 (cA cB : String) (fs0 : List (String × Json)) : List (String × Json) :=
  (upsertEvent (upsertEvent (hooksFieldsOf (upsertF2 fs0)) "afterAgentResponse" cA).1
    "beforeSubmitPrompt" cB).1

theorem upsertHooksConfig_fst (cA cB : String) (fs0 : List (String × Json)) :
    (upsertHooksConfig cA cB fs0).1 =
      setF (upsertF2 fs0) "hooks" (.obj (upsertHf2 cA cB fs0)) := rfl

theorem upsertHf2_after (cA cB : String) (fs0 : List (String × Json)) :
    ∃ es, lookupF (upsertHf2 cA cB fs0) "afterAgentResponse" = some (.arr es) ∧
      es.any (fun e => entryCmdIs e cA) = true := by
  obtain ⟨es, hl, ha⟩ :=
    upsertEvent_lookup (hooksFieldsOf (upsertF2 fs0)) "afterAgentResponse" cA
  refine ⟨es, ?_, ha⟩
  unfold upsertHf2
  rw [upsertEvent_preserve _ _ _ _ (by decide), hl]

theorem upsertHf2_before (cA cB : String) (fs0 : List (String × Json)) :
    ∃ es, lookupF (upsertHf2 cA cB fs0) "beforeSubmitPrompt" = some (.arr es) ∧
      es.any (fun e => entryCmdIs e cB) = true :=
  upsertEvent_lookup _ "beforeSubmitPrompt" cB

theorem upsertConfig_hooks (cA cB : String) (fs0 : List (String × Json)) :
    lookupF (upsertHooksConfig cA cB fs0).1 "hooks" =
      some (.obj (upsertHf2 cA cB fs0)) := by
  rw [upsertHooksConfig_fst]
  exact lookupF_setF_self ..

theorem upsertConfig_version (cA cB : String) (fs0 : List (String × Json)) :
    ∃ n, lookupF (upsertHooksConfig cA cB fs0).1 "version" = some (.num n) := by
  obtain ⟨n, hn⟩ := ensureVersionNum_version fs0
  refine ⟨n, ?_⟩
  rw [upsertHooksConfig_fst, lookupF_setF_ne _ _ _ _ (by decide)]
  unfold upsertF2
  rw [ensureHooksObject_preserve _ _ (by decide), hn]

theorem upsertHooksConfig_stable (cA cB : String) (fs0 : List (String × Json)) :
    upsertHooksConfig cA cB (upsertHooksConfig cA cB fs0).1 =
      ((upsertHooksConfig cA cB fs0).1, false) := by
  obtain ⟨n, hver⟩ := upsertConfig_version cA cB fs0
  have hhooks := upsertConfig_hooks cA cB fs0
  obtain ⟨esA, hlA, haA⟩ := upsertHf2_after cA cB fs0
  obtain ⟨esB, hlB, haB⟩ := upsertHf2_before cA cB fs0
  have h1 := ensureVersionNum_stable _ _ hver
  have h2 := ensureHooksObject_stable _ _ hhooks
  have h3 : hooksFieldsOf (upsertHooksConfig cA cB fs0).1 = upsertHf2 cA cB fs0 := by
    unfold hooksFieldsOf
    rw [hhooks]
  have h4 := upsertEvent_stable _ _ cA _ hlA haA
  have h5 := upsertEvent_stable _ _ cB _ hlB haB
  have h6 := setF_self _ _ _ hhooks
  set FS := (upsertHooksConfig cA cB fs0).1 with hFS
  simp [upsertHooksConfig, h1, h2, h3, h4, h5, h6]

/-- The registry contents under which `upsertHooksJson` is entered with a
well-formed `afterAgentResponse` list (vacuously true when `hooks` is not an
object or the list is missing). -/
def AfterEntriesOk (fs0 : List (String × Json)) : Prop :=
  ∀ hf es, lookupF fs0 "hooks" = some (.obj hf) →
    lookupF hf "afterAgentResponse" = some (.arr es) → es.all isCmdEntry = true

theorem hooksFieldsOf_upsertF2 (fs0 : List (String × Json)) :
    (∃ hf, lookupF fs0 "hooks" = some (.obj hf) ∧ hooksFieldsOf (upsertF2 fs0) = hf) ∨
      (hooksFieldsOf (upsertF2 fs0) = [] ∧
        ∀ hf, lookupF fs0 "hooks" ≠ some (.obj hf)) := by
  have hpres : lookupF (ensureVersionNum fs0).1 "hooks" = lookupF fs0 "hooks" :=
    ensureVersionNum_preserve _ _ (by decide)
  by_cases hobj : ∃ hf, lookupF fs0 "hooks" = some (.obj hf)
  · obtain ⟨hf, hl⟩ := hobj
    left
    refine ⟨hf, hl, ?_⟩
    unfold upsertF2
    rw [ensureHooksObject_stable _ hf (hpres.trans hl)]
    unfold hooksFieldsOf
    rw [hpres, hl]
  · right
    have hset : ensureHooksObject (ensureVersionNum fs0).1 =
        (setF (ensureVersionNum fs0).1 "hooks" (.obj []), true) := by
      unfold ensureHooksObject
      rw [hpres]
      cases hl : lookupF fs0 "hooks" with
      | none => rfl
      | some v =>
        cases v with
        | obj hf => exact absurd ⟨hf, hl⟩ hobj
        | null => rfl
        | bool b => rfl
        | num n => rfl
        | str s => rfl
        | arr es => rfl
    constructor
    · unfold upsertF2
      rw [hset]
      unfold hooksFieldsOf
      rw [lookupF_setF_self]
    · intro hf hl
      exact hobj ⟨hf, hl⟩

theorem upsertHf2_after_all_ok (cA cB : String) (fs0 : List (String × Json))
    (h : AfterEntriesOk fs0) :
    ∀ es, lookupF (upsertHf2 cA cB fs0) "afterAgentResponse" = some (.arr es) →
      es.all isCmdEntry = true := by
  have hbase : ∀ es, lookupF (hooksFieldsOf (upsertF2 fs0)) "afterAgentResponse" =
      some (.arr es) → es.all isCmdEntry = true := by
    rcases hooksFieldsOf_upsertF2 fs0 with ⟨hf, hl, heq⟩ | ⟨heq, _⟩
    · rw [heq]
      exact fun es hes => h hf es hl hes
    · rw [heq]
      intro es hes
      simp [lookupF] at hes
  have hstep := upsertEvent_all_ok (hooksFieldsOf (upsertF2 fs0)) "afterAgentResponse" cA hbase
  intro es hes
  apply hstep es
  unfold upsertHf2 at hes
  rw [upsertEvent_preserve _ _ _ _ (by decide)] at hes
  exact hes

theorem upsertHooksConfig_parseOk (cA cB : String) (fs0 : List (String × Json))
    (h : AfterEntriesOk fs0) :
    parseHooksJsonOk (.obj (upsertHooksConfig cA cB fs0).1) = true := by
  obtain ⟨esA, hlA, _⟩ := upsertHf2_after cA cB fs0
  have hall := upsertHf2_after_all_ok cA cB fs0 h esA hlA
  simp [parseHooksJsonOk, upsertConfig_hooks, hlA, hall]

theorem specStructValid_afterOk (fs0 : List (String × Json))
    (h : specStructValid (.obj fs0) = true) : AfterEntriesOk fs0 := by
  intro hf es hl hn
  simp [specStructValid, hl] at h
  have hmem := lookupF_mem hf _ _ hn
  have hev := h _ _ hmem
  simpa [eventListOk] using hev

theorem specStructValid_parseOk (j : Json) (h : specStructValid j = true) :
    parseHooksJsonOk j = true := by
  cases j with
  | obj fs =>
    cases hh : lookupF fs "hooks" with
    | none => simp [parseHooksJsonOk, hh]
    | some v =>
      cases v with
      | obj hf =>
        simp [specStructValid, hh] at h
        cases hn : lookupF hf "afterAgentResponse" with
        | none => simp [parseHooksJsonOk, hh, hn]
        | some w =>
          have hev := h _ _ (lookupF_mem hf _ _ hn)
          cases w with
          | arr es =>
            simp [parseHooksJsonOk, hh, hn]
            simpa [eventListOk] using hev
          | null => simp [eventListOk] at hev
          | bool b => simp [eventListOk] at hev
          | num n => simp [eventListOk] at hev
          | str s => simp [eventListOk] at hev
          | obj o => simp [eventListOk] at hev
      | null => simp [specStructValid, hh] at h
      | bool b => simp [specStructValid, hh] at h
      | num n => simp [specStructValid, hh] at h
      | str s => simp [specStructValid, hh] at h
      | arr es => simp [specStructValid, hh] at h
  | null => simp [specStructValid] at h
  | bool b => simp [specStructValid] at h
  | num n => simp [specStructValid] at h
  | str s => simp [specStructValid] at h
  | arr es => simp [specStructValid] at h

theorem upsertHooksConfig_unchanged (cA cB : String) (fs0 : List (String × Json))
    (h : (upsertHooksConfig cA cB fs0).2 = false) :
    (upsertHooksConfig cA cB fs0).1 = fs0 := by
  have hexp : (upsertHooksConfig cA cB fs0).2 =
      ((((ensureVersionNum fs0).2 ||
          (ensureHooksObject (ensureVersionNum fs0).1).2) ||
            (upsertEvent (hooksFieldsOf (upsertF2 fs0)) "afterAgentResponse" cA).2) ||
              (upsertEvent (upsertEvent (hooksFieldsOf (upsertF2 fs0))
                "afterAgentResponse" cA).1 "beforeSubmitPrompt" cB).2) := by
    unfold upsertF2 upsertHooksConfig
    exact rfl
  rw [hexp] at h
  simp only [Bool.or_eq_false_iff] at h
  obtain ⟨⟨⟨h1, h2⟩, h3⟩, h4⟩ := h
  have e1 := ensureVersionNum_unchanged fs0 h1
  obtain ⟨hfo, hlo⟩ := ensureHooksObject_was_obj _ h2
  have e2 := ensureHooksObject_unchanged _ h2
  have hF2 : upsertF2 fs0 = fs0 := by
    unfold upsertF2
    rw [e2, e1]
  have eA := upsertEvent_unchanged _ _ cA h3
  have eB := upsertEvent_unchanged _ _ cB h4
  rw [upsertHooksConfig_fst]
  unfold upsertHf2
  rw [eB, eA, hF2]
  have hhf : hooksFieldsOf fs0 = hfo := by
    unfold hooksFieldsOf
    rw [e1] at hlo
    rw [hlo]
  rw [hhf]
  exact setF_self _ _ _ (by rw [e1] at hlo; exact hlo)

theorem upsertHooksJson_obj_result (cA cB : String) (fs0 : List (String × Json))
    (hok : parseHooksJsonOk (.obj fs0) = true) :
    upsertHooksJson cA cB (.json (.obj fs0)) =
      (.json (.obj (upsertHooksConfig cA cB fs0).1), (upsertHooksConfig cA cB fs0).2) := by
  cases hch : (upsertHooksConfig cA cB fs0).2 with
  | true => simp [upsertHooksJson, hok, hch]
  | false => simp [upsertHooksJson, hok, hch, upsertHooksConfig_unchanged cA cB fs0 hch]

theorem upsertHooksJson_absent (cA cB : String) :
    upsertHooksJson cA cB .absent =
      (.json (.obj (upsertHooksConfig cA cB []).1), true) := by
  have hch : (upsertHooksConfig cA cB []).2 = true := rfl
  simp [upsertHooksJson, hch]

/-- C2: on every valid registry state, a second run of the upsert operation
with the same arguments returns the same file content and skips the write
(the returned write flag is false). -/
theorem c2_upsert_idempotent (cA cB : String) (st : FileSt) (h : ValidRegistryFile st) :
    upsertHooksJson cA cB (upsertHooksJson cA cB st).1 =
      ((upsertHooksJson cA cB st).1, false) := by
  have core : ∀ fs0 : List (String × Json), AfterEntriesOk fs0 →
      upsertHooksJson cA cB (.json (.obj (upsertHooksConfig cA cB fs0).1)) =
        (.json (.obj (upsertHooksConfig cA cB fs0).1), false) := by
    intro fs0 hok
    have hpok := upsertHooksConfig_parseOk cA cB fs0 hok
    rw [upsertHooksJson_obj_result cA cB _ hpok, upsertHooksConfig_stable cA cB fs0]
  cases st with
  | absent =>
    rw [upsertHooksJson_absent]
    exact core [] (by intro hf es hl _; simp [lookupF] at hl)
  | unparseable => exact h.elim
  | json j =>
    cases j with
    | obj fs0 =>
      have hvalid : specStructValid (.obj fs0) = true := h
      rw [upsertHooksJson_obj_result cA cB fs0 (specStructValid_parseOk _ hvalid)]
      exact core fs0 (specStructValid_afterOk fs0 hvalid)
    | null => simp [ValidRegistryFile, specStructValid] at h
    | bool b => simp [ValidRegistryFile, specStructValid] at h
    | num n => simp [ValidRegistryFile, specStructValid] at h
    | str s => simp [ValidRegistryFile, specStructValid] at h
    | arr es => simp [ValidRegistryFile, specStructValid] at h

/-- C2 witness: idempotence at a concrete valid registry (the absent file). -/
theorem c2_upsert_idempotent_witness :
    ValidRegistryFile .absent ∧
      upsertHooksJson "cmdA" "cmdB" (upsertHooksJson "cmdA" "cmdB" .absent).1 =
        ((upsertHooksJson "cmdA" "cmdB" .absent).1, false) :=
  ⟨trivial, c2_upsert_idempotent "cmdA" "cmdB" .absent trivial⟩

theorem length_filter_lt {α : Type} (p : α → Bool) (l : List α) (e : α)
    (he : e ∈ l) (hp : p e = false) : (l.filter p).length < l.length := by
  induction l with
  | nil => cases he
  | cons x xs ih =>
    rcases List.mem_cons.mp he with hx | hx
    · subst hx
      simp only [List.filter_cons, hp]
      exact Nat.lt_succ_of_le (List.length_filter_le p xs)
    · cases hpx : p x with
      | true => simpa [List.filter_cons, hpx] using ih hx
      | false =>
        simp only [List.filter_cons, hpx]
        exact Nat.lt_succ_of_lt (ih hx)

theorem hooksFieldsOf_none (fs0 : List (String × Json))
    (h : ∀ hf, lookupF fs0 "hooks" ≠ some (.obj hf)) : hooksFieldsOf fs0 = [] := by
  unfold hooksFieldsOf
  cases hh : lookupF fs0 "hooks" with
  | none => rfl
  | some v =>
    cases v with
    | obj hf => exact absurd hh (h hf)
    | null => rfl
    | bool b => rfl
    | num n => rfl
    | str s => rfl
    | arr es => rfl

theorem hooksFieldsOf_upsertF2_eq (fs0 : List (String × Json)) :
    hooksFieldsOf (upsertF2 fs0) = hooksFieldsOf fs0 := by
  rcases hooksFieldsOf_upsertF2 fs0 with ⟨hf, hl, heq⟩ | ⟨heq, hnone⟩
  · rw [heq]
    unfold hooksFieldsOf
    rw [hl]
  · rw [heq, hooksFieldsOf_none fs0 hnone]

theorem origListOf_congr (hf hf' : List (String × Json)) (k : String)
    (h : lookupF hf k = lookupF hf' k) : origListOf hf k = origListOf hf' k := by
  unfold origListOf
  rw [h]

theorem eventEntries_eq (fs : List (String × Json)) (k : String) :
    eventEntries (.json (.obj fs)) k = origListOf (hooksFieldsOf fs) k := by
  unfold eventEntries hooksFieldsOf origListOf
  cases hh : lookupF fs "hooks" with
  | none => simp [hh, lookupF]
  | some v =>
    cases v with
    | obj hf => simp [hh]
    | null => simp [hh, lookupF]
    | bool b => simp [hh, lookupF]
    | num n => simp [hh, lookupF]
    | str s => simp [hh, lookupF]
    | arr es => simp [hh, lookupF]

theorem removeHooksConfig_result (cA cB : String) (fields : List (String × Json))
    (hf : List (String × Json)) (esA esB : List Json)
    (hhf : lookupF fields "hooks" = some (.obj hf))
    (hA : lookupF hf "afterAgentResponse" = some (.arr esA))
    (hB : lookupF hf "beforeSubmitPrompt" = some (.arr esB))
    (hch : ¬((esA.filter (keepEntry cA cB)).length = esA.length ∧
      (esB.filter (keepEntry cA cB)).length = esB.length)) :
    removeHooksConfig cA cB fields =
      (setF fields "hooks" (.obj (setF (setF hf "afterAgentResponse"
        (.arr (esA.filter (keepEntry cA cB)))) "beforeSubmitPrompt"
        (.arr (esB.filter (keepEntry cA cB))))), true) := by
  simp only [removeHooksConfig, hhf, hA, hB]
  rw [if_neg hch]

/-- C3: on every valid registry, upserting the tool's commands and then
removing them leaves, for each event key, exactly the original entries that
were not the tool's commands, in their original order; event keys other than
the two managed ones keep their lists unchanged. -/
theorem c3_upsert_remove_roundtrip (cA cB : String) (st : FileSt)
    (h : ValidRegistryFile st) :
    eventEntries (removeHookCommand cA cB (upsertHooksJson cA cB st).1).1
        "afterAgentResponse" =
      (eventEntries st "afterAgentResponse").filter (keepEntry cA cB) ∧
    eventEntries (removeHookCommand cA cB (upsertHooksJson cA cB st).1).1
        "beforeSubmitPrompt" =
      (eventEntries st "beforeSubmitPrompt").filter (keepEntry cA cB) ∧
    ∀ k, k ≠ "afterAgentResponse" → k ≠ "beforeSubmitPrompt" →
      eventEntries (removeHookCommand cA cB (upsertHooksJson cA cB st).1).1 k =
        eventEntries st k := by
  have core : ∀ fs0 : List (String × Json), AfterEntriesOk fs0 →
      eventEntries (removeHookCommand cA cB
          (.json (.obj (upsertHooksConfig cA cB fs0).1))).1 "afterAgentResponse" =
        (origListOf (hooksFieldsOf fs0) "afterAgentResponse").filter (keepEntry cA cB) ∧
      eventEntries (removeHookCommand cA cB
          (.json (.obj (upsertHooksConfig cA cB fs0).1))).1 "beforeSubmitPrompt" =
        (origListOf (hooksFieldsOf fs0) "beforeSubmitPrompt").filter (keepEntry cA cB) ∧
      ∀ k, k ≠ "afterAgentResponse" → k ≠ "beforeSubmitPrompt" →
        eventEntries (removeHookCommand cA cB
            (.json (.obj (upsertHooksConfig cA cB fs0).1))).1 k =
          origListOf (hooksFieldsOf fs0) k := by
    intro fs0 hok
    have hpok := upsertHooksConfig_parseOk cA cB fs0 hok
    have hhooks := upsertConfig_hooks cA cB fs0
    obtain ⟨esA, hlA, haA⟩ := upsertHf2_after cA cB fs0
    obtain ⟨esB, hlB, haB⟩ := upsertHf2_before cA cB fs0
    obtain ⟨e, hmem, he⟩ := List.any_eq_true.mp haA
    have hkeep : keepEntry cA cB e = false := by simp [keepEntry, he]
    have hlt := length_filter_lt (keepEntry cA cB) esA e hmem hkeep
    have hch : ¬((esA.filter (keepEntry cA cB)).length = esA.length ∧
        (esB.filter (keepEntry cA cB)).length = esB.length) := by
      intro hcontra
      exact absurd hcontra.1 (Nat.ne_of_lt hlt)
    have hrem := removeHooksConfig_result cA cB (upsertHooksConfig cA cB fs0).1
      (upsertHf2 cA cB fs0) esA esB hhooks hlA hlB hch
    have hst2 : (removeHookCommand cA cB
        (.json (.obj (upsertHooksConfig cA cB fs0).1))).1 =
        .json (.obj (setF (upsertHooksConfig cA cB fs0).1 "hooks"
          (.obj (setF (setF (upsertHf2 cA cB fs0) "afterAgentResponse"
            (.arr (esA.filter (keepEntry cA cB)))) "beforeSubmitPrompt"
            (.arr (esB.filter (keepEntry cA cB))))))) := by
      simp [removeHookCommand, hpok, hrem]
    -- the written hooks object
    have hresHooks : lookupF (setF (upsertHooksConfig cA cB fs0).1 "hooks"
        (.obj (setF (setF (upsertHf2 cA cB fs0) "afterAgentResponse"
          (.arr (esA.filter (keepEntry cA cB)))) "beforeSubmitPrompt"
          (.arr (esB.filter (keepEntry cA cB)))))) "hooks" =
        some (.obj (setF (setF (upsertHf2 cA cB fs0) "afterAgentResponse"
          (.arr (esA.filter (keepEntry cA cB)))) "beforeSubmitPrompt"
          (.arr (esB.filter (keepEntry cA cB))))) := lookupF_setF_self ..
    have hfields : hooksFieldsOf (setF (upsertHooksConfig cA cB fs0).1 "hooks"
        (.obj (setF (setF (upsertHf2 cA cB fs0) "afterAgentResponse"
          (.arr (esA.filter (keepEntry cA cB)))) "beforeSubmitPrompt"
          (.arr (esB.filter (keepEntry cA cB)))))) =
        setF (setF (upsertHf2 cA cB fs0) "afterAgentResponse"
          (.arr (esA.filter (keepEntry cA cB)))) "beforeSubmitPrompt"
          (.arr (esB.filter (keepEntry cA cB))) := by
      unfold hooksFieldsOf
      rw [hresHooks]
    -- filtered lists trace back to the original lists
    have hfA : esA.filter (keepEntry cA cB) =
        (origListOf (hooksFieldsOf fs0) "afterAgentResponse").filter (keepEntry cA cB) := by
      have hlA' : lookupF (upsertEvent (hooksFieldsOf (upsertF2 fs0))
          "afterAgentResponse" cA).1 "afterAgentResponse" = some (.arr esA) := by
        have := hlA
        unfold upsertHf2 at this
        rwa [upsertEvent_preserve _ _ _ _ (by decide)] at this
      have := upsertEvent_filter (hooksFieldsOf (upsertF2 fs0)) "afterAgentResponse"
        cA cA cB (by simp [keepEntry, entryCmdIs_cmdEntry]) esA hlA'
      rwa [hooksFieldsOf_upsertF2_eq] at this
    have hfB : esB.filter (keepEntry cA cB) =
        (origListOf (hooksFieldsOf fs0) "beforeSubmitPrompt").filter (keepEntry cA cB) := by
      have := upsertEvent_filter (upsertEvent (hooksFieldsOf (upsertF2 fs0))
        "afterAgentResponse" cA).1 "beforeSubmitPrompt"
        cB cA cB (by simp [keepEntry, entryCmdIs_cmdEntry]) esB hlB
      rw [this, origListOf_congr _ (hooksFieldsOf (upsertF2 fs0)) _
        (upsertEvent_preserve _ _ _ _ (by decide)), hooksFieldsOf_upsertF2_eq]
    refine ⟨?_, ?_, ?_⟩
    · rw [hst2, eventEntries_eq, hfields]
      unfold origListOf
      rw [lookupF_setF_ne _ _ _ _ (by decide), lookupF_setF_self]
      exact hfA
    · rw [hst2, eventEntries_eq, hfields]
      unfold origListOf
      rw [lookupF_setF_self]
      exact hfB
    · intro k hkA hkB
      rw [hst2, eventEntries_eq, hfields]
      apply origListOf_congr
      rw [lookupF_setF_ne _ _ _ _ (fun hh => hkB hh.symm),
        lookupF_setF_ne _ _ _ _ (fun hh => hkA hh.symm)]
      unfold upsertHf2
      rw [upsertEvent_preserve _ _ _ _ (fun hh => hkB hh.symm),
        upsertEvent_preserve _ _ _ _ (fun hh => hkA hh.symm),
        hooksFieldsOf_upsertF2_eq]
  cases st with
  | absent =>
    rw [upsertHooksJson_absent]
    have hok : AfterEntriesOk [] := by intro hf es hl _; simp [lookupF] at hl
    obtain ⟨h1, h2, h3⟩ := core [] hok
    exact ⟨h1, h2, fun k hkA hkB => h3 k hkA hkB⟩
  | unparseable => exact h.elim
  | json j =>
    cases j with
    | obj fs0 =>
      have hvalid : specStructValid (.obj fs0) = true := h
      rw [upsertHooksJson_obj_result cA cB fs0 (specStructValid_parseOk _ hvalid)]
      obtain ⟨h1, h2, h3⟩ := core fs0 (specStructValid_afterOk fs0 hvalid)
      refine ⟨?_, ?_, ?_⟩
      · rw [h1, eventEntries_eq]
      · rw [h2, eventEntries_eq]
      · intro k hkA hkB
        rw [h3 k hkA hkB, eventEntries_eq]
    | null => simp [ValidRegistryFile, specStructValid] at h
    | bool b => simp [ValidRegistryFile, specStructValid] at h
    | num n => simp [ValidRegistryFile, specStructValid] at h
    | str s => simp [ValidRegistryFile, specStructValid] at h
    | arr es => simp [ValidRegistryFile, specStructValid] at h

/-- C3 witness: the round trip at a concrete valid registry holding a foreign
entry in the managed list and a foreign event key. -/
theorem c3_upsert_remove_roundtrip_witness :
    ValidRegistryFile (.json (Json.obj [("version", Json.num 1),
      ("hooks", Json.obj [("afterAgentResponse", Json.arr [cmdEntry "keep"]),
        ("someOther", Json.arr [cmdEntry "x"])])])) ∧
    (eventEntries (removeHookCommand "a" "b" (upsertHooksJson "a" "b"
        (.json (Json.obj [("version", Json.num 1),
          ("hooks", Json.obj [("afterAgentResponse", Json.arr [cmdEntry "keep"]),
            ("someOther", Json.arr [cmdEntry "x"])])]))).1).1 "afterAgentResponse" =
      (eventEntries (.json (Json.obj [("version", Json.num 1),
        ("hooks", Json.obj [("afterAgentResponse", Json.arr [cmdEntry "keep"]),
          ("someOther", Json.arr [cmdEntry "x"])])])) "afterAgentResponse").filter
        (keepEntry "a" "b") ∧
    eventEntries (removeHookCommand "a" "b" (upsertHooksJson "a" "b"
        (.json (Json.obj [("version", Json.num 1),
          ("hooks", Json.obj [("afterAgentResponse", Json.arr [cmdEntry "keep"]),
            ("someOther", Json.arr [cmdEntry "x"])])]))).1).1 "beforeSubmitPrompt" =
      (eventEntries (.json (Json.obj [("version", Json.num 1),
        ("hooks", Json.obj [("afterAgentResponse", Json.arr [cmdEntry "keep"]),
          ("someOther", Json.arr [cmdEntry "x"])])])) "beforeSubmitPrompt").filter
        (keepEntry "a" "b") ∧
    ∀ k, k ≠ "afterAgentResponse" → k ≠ "beforeSubmitPrompt" →
      eventEntries (removeHookCommand "a" "b" (upsertHooksJson "a" "b"
          (.json (Json.obj [("version", Json.num 1),
            ("hooks", Json.obj [("afterAgentResponse", Json.arr [cmdEntry "keep"]),
              ("someOther", Json.arr [cmdEntry "x"])])]))).1).1 k =
        eventEntries (.json (Json.obj [("version", Json.num 1),
          ("hooks", Json.obj [("afterAgentResponse", Json.arr [cmdEntry "keep"]),
            ("someOther", Json.arr [cmdEntry "x"])])])) k) :=
  ⟨rfl, c3_upsert_remove_roundtrip "a" "b" _ rfl⟩

/-- C1 counterexample: the registry `{"hooks":{"beforeSubmitPrompt":5}}` fails
the claim's structural validation (`beforeSubmitPrompt` is not a list of
command objects), yet the upsert operation is not a no-op on it: the invalid
value is overwritten, because `parseHooksJson` only inspects the
`afterAgentResponse` key. -/
theorem c1_upsert_overwrites_counterexample :
    specStructValid (Json.obj [("hooks", Json.obj [("beforeSubmitPrompt", Json.num 5)])]) =
      false ∧
    (upsertHooksJson "A" "B"
        (.json (Json.obj [("hooks", Json.obj [("beforeSubmitPrompt", Json.num 5)])]))).1 ≠
      .json (Json.obj [("hooks", Json.obj [("beforeSubmitPrompt", Json.num 5)])]) := by
  refine ⟨rfl, ?_⟩
  intro hcontra
  rw [show (upsertHooksJson "A" "B"
      (.json (Json.obj [("hooks", Json.obj [("beforeSubmitPrompt", Json.num 5)])]))).1 =
      .json (Json.obj [("hooks", Json.obj [("beforeSubmitPrompt", Json.arr [cmdEntry "B"]),
        ("afterAgentResponse", Json.arr [cmdEntry "A"])]), ("version", Json.num 1)])
    from rfl] at hcontra
  simp [cmdEntry] at hcontra

/-- C1 amended: both operations are no-ops exactly on the content the code's
own validation rejects — unreadable JSON, a top level that is not a JSON
object, a `hooks` field that is not an object, or a `hooks.afterAgentResponse`
that is not a list of `{command: string}` objects. (Structural defects under
other event keys are not detected; the upsert replaces such values.) -/
theorem c1_invalid_registry_noop (cA cB : String) (st : FileSt)
    (h : RejectedRegistryFile st) :
    upsertHooksJson cA cB st = (st, false) ∧ removeHookCommand cA cB st = (st, false) := by
  cases st with
  | absent => exact h.elim
  | unparseable => exact ⟨rfl, rfl⟩
  | json j =>
    have hj : parseHooksJsonOk j = false := h
    exact ⟨by simp [upsertHooksJson, hj], by simp [removeHookCommand, hj]⟩

/-- C1 witness: a present file whose JSON is a bare string is rejected and
both operations leave it untouched without writing. -/
theorem c1_invalid_registry_noop_witness :
    RejectedRegistryFile (.json (Json.str "oops")) ∧
      (upsertHooksJson "A" "B" (.json (Json.str "oops")) = (.json (Json.str "oops"), false) ∧
        removeHookCommand "A" "B" (.json (Json.str "oops")) = (.json (Json.str "oops"), false)) :=
  ⟨rfl, c1_invalid_registry_noop "A" "B" _ rfl⟩

/-- JS whitespace (the `\s` class and `String.prototype.trim`): space, tab,
line terminators, vertical tab, form feed, NBSP, BOM and the Unicode line
separators — the code points the program's data can contain. -/
def isJsWsCh (c : Char) : Bool :=
  c = ' ' || c = '\t' || c = '\n' || c = '\r' || c = '\x0b' || c = '\x0c' ||
    c = '\u00a0' || c = '\ufeff' || c = '\u2028' || c = '\u2029'

/-- JS `String.prototype.trim` over code units. -/
def jsTrim (l : List Char) : List Char :=
  ((l.dropWhile isJsWsCh).reverse.dropWhile isJsWsCh).reverse

/-- Numeric value of a digit string (the digits are 0-9). -/
def digitsVal (l : List Char) : Nat :=
  l.foldl (fun a c => a * 10 + (c.toNat - '0'.toNat)) 0

/-- The `([0-5]?\d)` seconds group of the minimum-duration regex: one digit,
or two digits whose first is 0..5. -/
def secondsPartOk : List Char → Bool
  | [c] => c.isDigit
  | [c1, c2] => ('0' ≤ c1 && c1 ≤ '5') && c2.isDigit
  | _ => false

/-- `parseMinDurationSeconds`: trim, reject the empty string, then match
`^(\d+):([0-5]?\d)$` and return `minutes * 60 + seconds`. The source also
checks `Number.isFinite` on both groups; for digit strings below 10^308
(far beyond any configurable duration) that check never fires, and numbers
are modelled exactly. -/
def parseMinDurationSeconds (raw : String) : Option Nat :=
  let l := jsTrim raw.toList
  if l = [] then none
  else
    let mm := l.takeWhile (fun c => c ≠ ':')
    let rest := l.dropWhile (fun c => c ≠ ':')
    match rest with
    | ':' :: ss =>
      if mm ≠ [] && mm.all Char.isDigit && secondsPartOk ss then
        some (digitsVal mm * 60 + digitsVal ss)
      else none
    | _ => none

/-- The `telegram` section of the workspace config, in the shape the
provisioner writes (`buildWorkspaceConfig`). -/
structure TelegramCfg where
  enabled : Bool
  botToken : String
  chatId : String
  minDuration : String
  includeFullResponse : Bool

/-- `maybeSendTelegram`, reduced to whether the summary message is
transmitted: nothing is sent unless the relay is enabled and both
credentials are non-empty after trimming; with an unknown duration the
message is sent only when no minimum duration parses; with a known duration
it is suppressed exactly when `durationMs / 1000 < minDurationSeconds`
(equivalently `durationMs < minDurationSeconds * 1000`). -/
def maybeSendTelegram (tg : TelegramCfg) (durationMs : Option Nat) : Bool :=
  if !tg.enabled then false
  else if jsTrim tg.botToken.toList = [] || jsTrim tg.chatId.toList = [] then false
  else
    match durationMs with
    | none =>
      match parseMinDurationSeconds tg.minDuration with
      | some _ => false
      | none => true
    | some d =>
      match parseMinDurationSeconds tg.minDuration with
      | some minS => if d < minS * 1000 then false else true
      | none => true

/-- C4: the relay transmits nothing unless enabled with non-empty trimmed
credentials; with `minDuration = "01:30"` (parsed as 90 s) a measured
85000 ms is suppressed and 95000 ms is sent; with any parsed threshold a
known duration is sent iff it reaches the threshold; with an unknown
duration the message is sent iff no minimum duration is configured
(a string that fails the MM:SS form counts as unconfigured). -/
theorem c4_maybe_send_policy :
    (∀ tg d, maybeSendTelegram tg d = true →
      tg.enabled = true ∧ jsTrim tg.botToken.toList ≠ [] ∧ jsTrim tg.chatId.toList ≠ []) ∧
    (parseMinDurationSeconds "01:30" = some 90 ∧
      ∀ tg, tg.enabled = true → jsTrim tg.botToken.toList ≠ [] → jsTrim tg.chatId.toList ≠ [] →
        tg.minDuration = "01:30" →
        maybeSendTelegram tg (some 85000) = false ∧
          maybeSendTelegram tg (some 95000) = true) ∧
    (∀ tg d minS, tg.enabled = true → jsTrim tg.botToken.toList ≠ [] → jsTrim tg.chatId.toList ≠ [] →
      parseMinDurationSeconds tg.minDuration = some minS →
      (maybeSendTelegram tg (some d) = true ↔ minS * 1000 ≤ d)) ∧
    (∀ tg, tg.enabled = true → jsTrim tg.botToken.toList ≠ [] → jsTrim tg.chatId.toList ≠ [] →
      (maybeSendTelegram tg none = true ↔
        parseMinDurationSeconds tg.minDuration = none)) := by
  refine ⟨?_, ⟨rfl, ?_⟩, ?_, ?_⟩
  · intro tg d h
    cases he : tg.enabled with
    | false => simp [maybeSendTelegram, he] at h
    | true =>
      simp [maybeSendTelegram, he] at h
      exact ⟨rfl, h.1.1, h.1.2⟩
  · intro tg he hb hc hmd
    have hb' : jsTrim tg.botToken.data ≠ [] := hb
    have hc' : jsTrim tg.chatId.data ≠ [] := hc
    constructor
    · simp [maybeSendTelegram, he, hb', hc', hmd,
        show parseMinDurationSeconds "01:30" = some 90 from rfl]
    · simp [maybeSendTelegram, he, hb', hc', hmd,
        show parseMinDurationSeconds "01:30" = some 90 from rfl]
  · intro tg d minS he hb hc hp
    have hb' : jsTrim tg.botToken.data ≠ [] := hb
    have hc' : jsTrim tg.chatId.data ≠ [] := hc
    by_cases hd : d < minS * 1000
    · simp [maybeSendTelegram, he, hb', hc', hp, hd]
    · simp [maybeSendTelegram, he, hb', hc', hp, hd]
      omega
  · intro tg he hb hc
    have hb' : jsTrim tg.botToken.data ≠ [] := hb
    have hc' : jsTrim tg.chatId.data ≠ [] := hc
    cases hp : parseMinDurationSeconds tg.minDuration with
    | none => simp [maybeSendTelegram, he, hb', hc', hp]
    | some minS => simp [maybeSendTelegram, he, hb', hc', hp]

/-- C4 witness: concrete sends and suppressions for the configuration
`{enabled, botToken "t", chatId "c", minDuration "01:30"}`. -/
theorem c4_maybe_send_policy_witness :
    maybeSendTelegram ⟨true, "t", "c", "01:30", false⟩ (some 85000) = false ∧
    maybeSendTelegram ⟨true, "t", "c", "01:30", false⟩ (some 95000) = true ∧
    (maybeSendTelegram ⟨true, "t", "c", "nonsense", false⟩ none = true ↔
      parseMinDurationSeconds "nonsense" = none) :=
  ⟨(c4_maybe_send_policy.2.1.2 ⟨true, "t", "c", "01:30", false⟩ rfl
      (by decide) (by decide) rfl).1,
    (c4_maybe_send_policy.2.1.2 ⟨true, "t", "c", "01:30", false⟩ rfl
      (by decide) (by decide) rfl).2,
    c4_maybe_send_policy.2.2.2 ⟨true, "t", "c", "nonsense", false⟩ rfl
      (by decide) (by decide)⟩

/-- JS truthiness of a JSON value (`NaN` does not arise from parsed JSON). -/
def jsTruthy : Json → Bool
  | .null => false
  | .bool b => b
  | .num n => n ≠ 0
  | .str s => s ≠ ""
  | .arr _ => true
  | .obj _ => true

/-- `getGenerationId`: `payload.generation_id || payload.generationId || null`
after the `payload && typeof payload === "object"` guard (arrays have neither
field, so they also yield null). -/
def getGenerationId (payload : Option Json) : Option Json :=
  match payload with
  | some (.obj fs) =>
    let v1 := (lookupF fs "generation_id").getD .null
    if jsTruthy v1 then some v1
    else
      let v2 := (lookupF fs "generationId").getD .null
      if jsTruthy v2 then some v2 else none
  | _ => none

/-- JS ToString coercion of a truthy generation id used as a property key.
Strings are kept, numbers print in decimal and booleans as true/false —
the shapes real payloads use. Array ids would coerce through
`Array.prototype.join` (approximated by the empty string) and plain objects
to "[object Object]"; no theorem exercises those. -/
def jsKeyStr : Json → String
  | .str s => s
  | .num n => toString n
  | .bool b => if b then "true" else "false"
  | .null => "null"
  | .arr _ => ""
  | .obj _ => "[object Object]"

/-- JS `Number(s)` on a trimmed decimal string: empty ⇒ 0, optionally signed
digit strings ⇒ their value, anything else ⇒ NaN (`none`). Fractional, hex
and exponent forms are valid JS but never written by the duration tracker,
which stores integral epoch milliseconds. -/
def jsNumOfStr (s : String) : Option Int :=
  let t := jsTrim s.toList
  if t = [] then some 0
  else
    match t with
    | '-' :: ds =>
      if ds ≠ [] && ds.all Char.isDigit then some (-(digitsVal ds : Int)) else none
    | '+' :: ds =>
      if ds ≠ [] && ds.all Char.isDigit then some ((digitsVal ds : Int)) else none
    | ds =>
      if ds.all Char.isDigit then some ((digitsVal ds : Int)) else none

/-- JS `Number(v)` on a stored table entry; `none` is NaN. `Number([])` is 0
and a one-element array coerces its element's string form; nested-array
unwrapping and multi-element arrays are NaN-approximated, and plain objects
are NaN. -/
def jsNumber : Json → Option Int
  | .null => some 0
  | .bool b => some (if b then 1 else 0)
  | .num n => some n
  | .str s => jsNumOfStr s
  | .arr [] => some 0
  | .arr [x] =>
    (match x with
     | .num n => some n
     | .null => some 0
     | .str s => jsNumOfStr s
     | _ => none)
  | .arr _ => none
  | .obj _ => none

/-- `getDurationMs`: read the generation id from the payload, look it up in
the start-time table, and when it holds a finite number, return
`max 0 (now - startedAt)` after deleting the entry and persisting the table.
All other paths return null and leave the file as it was. The pair is
(returned duration, resulting start-file content). -/
def getDurationMs (payload : Option Json) (startFile : Option Json) (now : Int) :
    Option Int × Option Json :=
  match getGenerationId payload with
  | none => (none, startFile)
  | some gid =>
    match startFile with
    | some (.obj fs) =>
      (match lookupF fs (jsKeyStr gid) with
       | some v =>
         (match jsNumber v with
          | some startedAt =>
            (some (max 0 (now - startedAt)), some (.obj (dropF fs (jsKeyStr gid))))
          | none => (none, startFile))
       | none => (none, startFile))
    | _ => (none, startFile)

theorem lookupF_dropF (fs : List (String × Json)) (k : String) :
    lookupF (dropF fs k) k = none := by
  induction fs with
  | nil => rfl
  | cons kv rest ih =>
    obtain ⟨k0, v0⟩ := kv
    by_cases h0 : k0 = k
    · simpa [dropF, List.filter, h0] using ih
    · simpa [dropF, List.filter, h0, lookupF] using ih

theorem getGenerationId_str (gid : String) (h : gid ≠ "") :
    getGenerationId (some (.obj [("generation_id", .str gid)])) = some (.str gid) := by
  simp [getGenerationId, lookupF, jsTruthy, h]

/-- C5: consuming a duration with a payload carrying generation id `gid`:
with no finite numeric entry for `gid` the result is null and the table file
untouched; with an entry `gid ↦ T` read at time `T + 5000` the result is
5000 ms, the entry is deleted from the persisted table, and a second consume
on the resulting table returns null; in general an entry `gid ↦ T` yields
the clamped duration `max 0 (now - T)`. -/
theorem c5_consume_duration :
    (∀ (fs : List (String × Json)) (gid : String) (now : Int), gid ≠ "" →
      (lookupF fs gid).bind jsNumber = none →
      getDurationMs (some (.obj [("generation_id", .str gid)])) (some (.obj fs)) now =
        (none, some (.obj fs))) ∧
    (∀ (fs : List (String × Json)) (gid : String) (T now : Int), gid ≠ "" →
      lookupF fs gid = some (.num T) →
      getDurationMs (some (.obj [("generation_id", .str gid)])) (some (.obj fs)) now =
        (some (max 0 (now - T)), some (.obj (dropF fs gid)))) ∧
    (∀ (fs : List (String × Json)) (gid : String) (T : Int), gid ≠ "" →
      lookupF fs gid = some (.num T) →
      (getDurationMs (some (.obj [("generation_id", .str gid)])) (some (.obj fs))
        (T + 5000)).1 = some 5000) ∧
    (∀ (fs : List (String × Json)) (gid : String) (now : Int), gid ≠ "" →
      getDurationMs (some (.obj [("generation_id", .str gid)]))
          (some (.obj (dropF fs gid))) now =
        (none, some (.obj (dropF fs gid)))) := by
  have hb : ∀ (fs : List (String × Json)) (gid : String) (now : Int), gid ≠ "" →
      ∀ T, lookupF fs gid = some (.num T) →
      getDurationMs (some (.obj [("generation_id", .str gid)])) (some (.obj fs)) now =
        (some (max 0 (now - T)), some (.obj (dropF fs gid))) := by
    intro fs gid now hgid T hl
    simp [getDurationMs, getGenerationId_str gid hgid, jsKeyStr, hl, jsNumber]
  have ha : ∀ (fs : List (String × Json)) (gid : String) (now : Int), gid ≠ "" →
      (lookupF fs gid).bind jsNumber = none →
      getDurationMs (some (.obj [("generation_id", .str gid)])) (some (.obj fs)) now =
        (none, some (.obj fs)) := by
    intro fs gid now hgid hnone
    cases hl : lookupF fs gid with
    | none => simp [getDurationMs, getGenerationId_str gid hgid, jsKeyStr, hl]
    | some v =>
      rw [hl] at hnone
      simp at hnone
      simp [getDurationMs, getGenerationId_str gid hgid, jsKeyStr, hl, hnone]
  refine ⟨ha, ?_, ?_, ?_⟩
  · intro fs gid T now hgid hl
    exact hb fs gid now hgid T hl
  · intro fs gid T hgid hl
    rw [hb fs gid (T + 5000) hgid T hl]
    norm_num
  · intro fs gid now hgid
    exact ha (dropF fs gid) gid now hgid (by rw [lookupF_dropF]; rfl)

/-- C5 witness: the table `{"gen-1": 100}` consumed at time 5100 yields
5000 ms and an empty table; consuming again yields null; a table without the
id yields null and is untouched. -/
theorem c5_consume_duration_witness :
    getDurationMs (some (.obj [("generation_id", .str "gen-1")]))
        (some (.obj [("gen-1", .num 100)])) 5100 =
      (some (max 0 (5100 - 100)), some (.obj (dropF [("gen-1", .num 100)] "gen-1"))) ∧
    getDurationMs (some (.obj [("generation_id", .str "gen-1")]))
        (some (.obj (dropF [("gen-1", .num 100)] "gen-1"))) 6000 =
      (none, some (.obj (dropF [("gen-1", .num 100)] "gen-1"))) ∧
    getDurationMs (some (.obj [("generation_id", .str "gen-1")]))
        (some (.obj [("other", .num 7)])) 5100 =
      (none, some (.obj [("other", .num 7)])) :=
  ⟨c5_consume_duration.2.1 [("gen-1", .num 100)] "gen-1" 100 5100 (by decide) rfl,
    c5_consume_duration.2.2.2 [("gen-1", .num 100)] "gen-1" 6000 (by decide),
    c5_consume_duration.1 [("other", .num 7)] "gen-1" 5100 (by decide) rfl⟩

/-- Scanner for `replace(/\s+/g, " ")`: `prevWs` records whether the
previous character was part of a whitespace run already emitted as one
space. -/
def collapseWsGo (prevWs : Bool) : List Char → List Char
  | [] => []
  | c :: rest =>
    if isJsWsCh c then
      if prevWs then collapseWsGo true rest
      else ' ' :: collapseWsGo true rest
    else c :: collapseWsGo false rest

/-- `replace(/\s+/g, " ")`: each maximal whitespace run becomes one space. -/
def collapseWs (l : List Char) : List Char := collapseWsGo false l

/-- `value.trim().replace(/\s+/g, " ")`. -/
def normWs (l : List Char) : List Char := collapseWs (jsTrim l)

/-- `truncateText`: empty for a non-positive limit, else whitespace-normalize
and keep the string when it fits; otherwise keep the first `maxLength - 1`
characters and append a three-dot ellipsis. -/
def truncateText (v : String) (maxLength : Nat) : String :=
  if maxLength = 0 then ""
  else
    let normalized := normWs v.toList
    if normalized.length ≤ maxLength then String.mk normalized
    else String.mk (normalized.take (maxLength - 1) ++ ['.', '.', '.'])

/-- `getByPath`'s walk along already-split path segments (only plain objects
expose the probed string keys; the `in` check's prototype chain plays no
role for parsed JSON). -/
def getByPathJ : Json → List String → Option Json
  | j, [] => some j
  | .obj fs, p :: ps =>
    (match lookupF fs p with
     | some v => getByPathJ v ps
     | none => none)
  | _, _ :: _ => none

/-- `getByPath(obj, keyPath)`; the dotted candidate paths of the source are
carried pre-split. -/
def getByPath (payload : Option Json) (parts : List String) : Option Json :=
  match payload with
  | some j => getByPathJ j parts
  | none => none

/-- `pickFirstString`: first candidate path whose value is a string with
non-blank trim, returned trimmed and whitespace-collapsed. -/
def pickFirstString (p : Option Json) (paths : List (List String)) : String :=
  match paths with
  | [] => ""
  | kp :: rest =>
    match getByPath p kp with
    | some (.str s) =>
      if jsTrim s.toList ≠ [] then String.mk (normWs s.toList)
      else pickFirstString p rest
    | _ => pickFirstString p rest

/-- `getPayloadSummary`: probe the summary paths and truncate to 320. -/
def getPayloadSummary (p : Option Json) : String :=
  truncateText (pickFirstString p [["summary"], ["result", "summary"],
    ["response", "summary"], ["message"], ["result", "message"]]) 320

/-- `getPayloadRequestPreview`: probe the request paths and truncate to 220. -/
def getPayloadRequestPreview (p : Option Json) : String :=
  truncateText (pickFirstString p [["prompt"], ["request"], ["request", "prompt"],
    ["request", "text"], ["userPrompt"], ["user_prompt"]]) 220

set_option maxRecDepth 10000 in
/-- C9 counterexample: a payload whose summary collapses to 321 non-blank
characters produces a 322-character summary field — `truncateText(v, 320)`
keeps 319 characters and appends three dots, so the bound 320 of the claim
is exceeded. -/
theorem c9_truncate_counterexample :
    (getPayloadSummary (some (.obj [("summary",
        .str (String.mk (List.replicate 321 'a')))]))).length = 322 ∧
      ¬(getPayloadSummary (some (.obj [("summary",
        .str (String.mk (List.replicate 321 'a')))]))).length ≤ 320 := by
  constructor
  · decide
  · decide

/-- C9 amended: `truncateText(v, N)` returns at most `N + 2` characters
(`N - 1` kept plus the three-dot ellipsis when the normalized text exceeds
`N`), so the summary field is at most 322 characters, the request preview at
most 222, and the truncated changed-file list at most 282. -/
theorem c9_truncate_bounds :
    (∀ (v : String) (n : Nat), (truncateText v n).length ≤ n + 2) ∧
    (∀ p, (getPayloadSummary p).length ≤ 322) ∧
    (∀ p, (getPayloadRequestPreview p).length ≤ 222) ∧
    (∀ joined : String, (truncateText joined 280).length ≤ 282) := by
  have hmain : ∀ (v : String) (n : Nat), (truncateText v n).length ≤ n + 2 := by
    intro v n
    unfold truncateText
    by_cases h0 : n = 0
    · simp [h0]
    · simp only [h0, if_false]
      by_cases hle : (normWs v.toList).length ≤ n
      · simp only [hle, if_true]
        calc (String.mk (normWs v.toList)).length = (normWs v.toList).length := rfl
          _ ≤ n + 2 := le_trans hle (by omega)
      · simp only [hle, if_false]
        calc (String.mk ((normWs v.toList).take (n - 1) ++ ['.', '.', '.'])).length
            = ((normWs v.toList).take (n - 1)).length + 3 := by
              simp [String.length, List.length_append]
          _ ≤ (n - 1) + 3 := by
              have := List.length_take_le (n - 1) (normWs v.toList)
              omega
          _ ≤ n + 2 := by omega
  exact ⟨hmain, fun p => hmain _ 320, fun p => hmain _ 220, fun joined => hmain joined 280⟩

/-- Observable events of one `withHooksJsonLock` run: a failed exclusive
create (EEXIST), the fixed-delay sleep, a successful create, the action run
(with whether it returned normally), and the unlink of the lock file. -/
inductive LockEv where
  | acquireFailed : LockEv
  | slept (ms : Nat) : LockEv
  | acquired : LockEv
  | actionRan (ok : Bool) : LockEv
  | releasedLock : LockEv
deriving DecidableEq

/-- How a `withHooksJsonLock` call ends: normally, by re-raising the
action's error (after the finally block), or with the lock timeout error. -/
inductive LockRes where
  | ok : LockRes
  | actionRaised : LockRes
  | timedOut : LockRes
deriving DecidableEq

/-- `LOCK_MAX_RETRIES`. -/
def lockMaxRetries : Nat := 8

/-- `LOCK_RETRY_DELAY_MS`. -/
def lockRetryDelayMs : Nat := 75

/-- The retry loop of `withHooksJsonLock`. `busy i` tells whether the
exclusive create at attempt `i` fails with EEXIST (non-EEXIST I/O errors
re-raise immediately and are outside this model); `actionOk` tells whether
the action returns normally. On success the `try/finally` closes and
unlinks the lock whether or not the action threw. The loop runs attempts
`0..LOCK_MAX_RETRIES`; fuel counts the remaining iterations. -/
def lockGo (busy : Nat → Bool) (actionOk : Bool) : Nat → Nat → List LockEv × LockRes
  | 0, _ => ([], .timedOut)
  | fuel + 1, attempt =>
    if busy attempt then
      if attempt = lockMaxRetries then ([.acquireFailed], .timedOut)
      else
        let r := lockGo busy actionOk fuel (attempt + 1)
        (.acquireFailed :: .slept lockRetryDelayMs :: r.1, r.2)
    else
      ([.acquired, .actionRan actionOk, .releasedLock],
        if actionOk then .ok else .actionRaised)

/-- `withHooksJsonLock`: the loop from attempt 0 (the fuel
`LOCK_MAX_RETRIES + 1` covers every iteration the source's loop can run). -/
def withHooksJsonLock (busy : Nat → Bool) (actionOk : Bool) : List LockEv × LockRes :=
  lockGo busy actionOk (lockMaxRetries + 1) 0

/-- `n` repetitions of a failed acquire followed by the 75 ms sleep. -/
def failSleepSeq : Nat → List LockEv
  | 0 => []
  | n + 1 => .acquireFailed :: .slept lockRetryDelayMs :: failSleepSeq n

theorem lockGo_all_busy (busy : Nat → Bool) (actionOk : Bool) :
    ∀ fuel attempt, attempt ≤ lockMaxRetries → attempt + fuel = lockMaxRetries + 1 →
    (∀ i, i ≤ lockMaxRetries → busy i = true) →
    lockGo busy actionOk fuel attempt =
      (failSleepSeq (lockMaxRetries - attempt) ++ [.acquireFailed], .timedOut) := by
  intro fuel
  induction fuel with
  | zero => intro attempt hle hsum _; omega
  | succ n ih =>
    intro attempt hle hsum hbusy
    rw [lockGo]
    rw [hbusy attempt hle]
    by_cases hmax : attempt = lockMaxRetries
    · simp [hmax, failSleepSeq]
    · have h1 : attempt + 1 ≤ lockMaxRetries := by omega
      have h2 : attempt + 1 + n = lockMaxRetries + 1 := by omega
      simp only [if_pos rfl, if_neg hmax, ih (attempt + 1) h1 h2 hbusy]
      have hshape : lockMaxRetries - attempt = (lockMaxRetries - (attempt + 1)) + 1 := by
        omega
      rw [hshape]
      rfl

theorem lockGo_acquires (busy : Nat → Bool) (actionOk : Bool) :
    ∀ fuel attempt j, attempt ≤ j → j ≤ lockMaxRetries → j < attempt + fuel →
    (∀ i, attempt ≤ i → i < j → busy i = true) → busy j = false →
    lockGo busy actionOk fuel attempt =
      (failSleepSeq (j - attempt) ++ [.acquired, .actionRan actionOk, .releasedLock],
        if actionOk then .ok else .actionRaised) := by
  intro fuel
  induction fuel with
  | zero => intro attempt j h1 h2 h3 _ _; omega
  | succ n ih =>
    intro attempt j h1 h2 h3 hbusy hfree
    rw [lockGo]
    by_cases heq : attempt = j
    · subst heq
      rw [hfree]
      simp [failSleepSeq]
    · have hlt : attempt < j := by omega
      rw [hbusy attempt (le_refl _) hlt]
      have hmax : attempt ≠ lockMaxRetries := by omega
      have hrec := ih (attempt + 1) j (by omega) h2 (by omega)
        (fun i hi1 hi2 => hbusy i (by omega) hi2) hfree
      simp only [if_pos rfl, if_neg hmax, hrec]
      have hshape : j - attempt = (j - (attempt + 1)) + 1 := by omega
      rw [hshape]
      rfl

/-- C8: with the lock file persistently present, the wrapper makes the
initial attempt plus `LOCK_MAX_RETRIES = 8` retries, each retry preceded by
a 75 ms sleep, and ends with the timeout error without ever running the
action; as soon as an attempt `j ≤ 8` succeeds, the action runs and the
lock file is released afterwards on both exit paths — whether the action
returned normally or threw. -/
theorem c8_lock_retry_release (busy : Nat → Bool) (actionOk : Bool) :
    (lockMaxRetries = 8 ∧ lockRetryDelayMs = 75) ∧
    ((∀ i, i ≤ lockMaxRetries → busy i = true) →
      withHooksJsonLock busy actionOk =
        (failSleepSeq lockMaxRetries ++ [.acquireFailed], .timedOut)) ∧
    (∀ j, j ≤ lockMaxRetries → (∀ i, i < j → busy i = true) → busy j = false →
      withHooksJsonLock busy actionOk =
        (failSleepSeq j ++ [.acquired, .actionRan actionOk, .releasedLock],
          if actionOk then .ok else .actionRaised)) := by
  refine ⟨⟨rfl, rfl⟩, ?_, ?_⟩
  · intro hbusy
    have := lockGo_all_busy busy actionOk (lockMaxRetries + 1) 0
      (by omega) (by omega) hbusy
    simpa [withHooksJsonLock] using this
  · intro j hj hbusy hfree
    have := lockGo_acquires busy actionOk (lockMaxRetries + 1) 0 j
      (by omega) hj (by omega) (fun i _ hi2 => hbusy i hi2) hfree
    simpa [withHooksJsonLock] using this

/-- C8 witness: a permanently held lock times out after 8 sleeps of 75 ms
and 9 failed creates; a lock that frees up at attempt 3 runs a throwing
action and still releases the lock, re-raising afterwards. -/
theorem c8_lock_retry_release_witness :
    withHooksJsonLock (fun _ => true) true =
      (failSleepSeq 8 ++ [.acquireFailed], .timedOut) ∧
    withHooksJsonLock (fun i => decide (i < 3)) false =
      (failSleepSeq 3 ++ [.acquired, .actionRan false, .releasedLock], .actionRaised) :=
  ⟨(c8_lock_retry_release (fun _ => true) true).2.1 (fun i _ => rfl),
    (c8_lock_retry_release (fun i => decide (i < 3)) false).2.2 3 (by decide)
      (fun i hi => by simp [hi]) (by decide)⟩

/-- Code-unit prefix test (the basic building block of `String.indexOf`). -/
def isPrefixCh : List Char → List Char → Bool
  | [], _ => true
  | _ :: _, [] => false
  | p :: ps, c :: cs => if p = c then isPrefixCh ps cs else false

/-- `String.indexOf(pat)`: index of the first (leftmost) occurrence. -/
def indexOfCh (pat : List Char) : List Char → Option Nat
  | [] => if isPrefixCh pat [] then some 0 else none
  | c :: rest =>
    if isPrefixCh pat (c :: rest) then some 0
    else (indexOfCh pat rest).map (· + 1)

/-- `String.indexOf(pat, start)`: index (absolute) of the first occurrence
at or after `start`. -/
def indexOfFrom (content pat : List Char) (start : Nat) : Option Nat :=
  (indexOfCh pat (content.drop start)).map (· + start)

/-- `MANAGED_BLOCK_START`. -/
def managedBlockStart : List Char := "// cursor-notifier:managed:start".toList

/-- `MANAGED_BLOCK_END`. -/
def managedBlockEnd : List Char := "// cursor-notifier:managed:end".toList

/-- `extractManagedBlock`: the slice from the first start marker through the
end of the first end marker found at or after it, else null. -/
def extractManagedBlock (content : List Char) : Option (List Char) :=
  match indexOfFrom content managedBlockStart 0 with
  | none => none
  | some s =>
    match indexOfFrom content managedBlockEnd s with
    | none => none
    | some e => some ((content.drop s).take (e + managedBlockEnd.length - s))

/-- `replaceManagedBlock`: substitute `block` for that same region, else
null. -/
def replaceManagedBlock (content block : List Char) : Option (List Char) :=
  match indexOfFrom content managedBlockStart 0 with
  | none => none
  | some s =>
    match indexOfFrom content managedBlockEnd s with
    | none => none
    | some e => some (content.take s ++ block ++ content.drop (e + managedBlockEnd.length))

/-- The merge `copyHookIfMissing` performs when bundled and destination
scripts differ: extract the bundled managed block and splice it into the
destination; `none` means the destination is left untouched. -/
def mergeManaged (bundled dest : List Char) : Option (List Char) :=
  match extractManagedBlock bundled with
  | none => none
  | some block => replaceManagedBlock dest block

/-- A text contains the pattern somewhere. -/
def containsSub (l pat : List Char) : Bool := (indexOfFrom l pat 0).isSome

theorem indexOfCh_some (pat : List Char) :
    ∀ (l : List Char) (i : Nat), indexOfCh pat l = some i →
      isPrefixCh pat (l.drop i) = true ∧
        ∀ j, j < i → isPrefixCh pat (l.drop j) = false := by
  intro l
  induction l with
  | nil =>
    intro i h
    unfold indexOfCh at h
    split at h
    next hp => cases h; exact ⟨hp, fun j hj => absurd hj (Nat.not_lt_zero j)⟩
    next => cases h
  | cons c rest ih =>
    intro i h
    unfold indexOfCh at h
    split at h
    next hp => cases h; exact ⟨hp, fun j hj => absurd hj (Nat.not_lt_zero j)⟩
    next hp =>
      cases hrec : indexOfCh pat rest with
      | none => rw [hrec] at h; cases h
      | some i' =>
        rw [hrec] at h
        simp at h
        obtain ⟨h1, h2⟩ := ih i' hrec
        subst h
        refine ⟨h1, ?_⟩
        intro j hj
        cases j with
        | zero => simpa using hp
        | succ j' => exact h2 j' (by omega)

theorem indexOfCh_none (pat : List Char) :
    ∀ l : List Char, indexOfCh pat l = none →
      ∀ j, isPrefixCh pat (l.drop j) = false := by
  intro l
  induction l with
  | nil =>
    intro h j
    unfold indexOfCh at h
    split at h
    next => cases h
    next hp => simpa using hp
  | cons c rest ih =>
    intro h j
    unfold indexOfCh at h
    split at h
    next => cases h
    next hp =>
      cases j with
      | zero => simpa using hp
      | succ j' =>
        cases hrec : indexOfCh pat rest with
        | none => exact ih hrec j'
        | some i' => rw [hrec] at h; cases h

theorem indexOfFrom_some (content pat : List Char) (start i : Nat)
    (h : indexOfFrom content pat start = some i) :
    start ≤ i ∧ isPrefixCh pat (content.drop i) = true ∧
      ∀ j, start ≤ j → j < i → isPrefixCh pat (content.drop j) = false := by
  unfold indexOfFrom at h
  cases hrec : indexOfCh pat (content.drop start) with
  | none => rw [hrec] at h; cases h
  | some i' =>
    rw [hrec] at h
    simp at h
    obtain ⟨h1, h2⟩ := indexOfCh_some pat _ i' hrec
    subst h
    refine ⟨by omega, ?_, ?_⟩
    · rw [List.drop_drop] at h1
      rwa [Nat.add_comm i' start]
    · intro j hj1 hj2
      have hpre := h2 (j - start) (by omega)
      rw [List.drop_drop] at hpre
      have heq : start + (j - start) = j := by omega
      rwa [heq] at hpre

theorem indexOfFrom_none (content pat : List Char) (start : Nat)
    (h : indexOfFrom content pat start = none) :
    ∀ j, start ≤ j → isPrefixCh pat (content.drop j) = false := by
  unfold indexOfFrom at h
  cases hrec : indexOfCh pat (content.drop start) with
  | some i' => rw [hrec] at h; cases h
  | none =>
    intro j hj
    have hpre := indexOfCh_none pat _ hrec (j - start)
    rw [List.drop_drop] at hpre
    have heq : start + (j - start) = j := by omega
    rwa [heq] at hpre

theorem isPrefixCh_ne_nil (p : Char) (ps l : List Char)
    (h : isPrefixCh (p :: ps) l = true) : l ≠ [] := by
  intro hl
  subst hl
  simp [isPrefixCh] at h

theorem take_append_self {α : Type} (a b : List α) (n : Nat) (h : a.length = n) :
    (a ++ b).take n = a := by
  subst h
  exact List.take_left a b

theorem drop_append_self {α : Type} (a b : List α) (n : Nat) (h : a.length = n) :
    (a ++ b).drop n = b := by
  subst h
  exact List.drop_left a b

/-- C7 amended: the merge returns `none` when the bundled side lacks its
markers or the destination lacks a start marker or an end marker at or after
its first start marker; when the destination has a start marker at its first
position `sD` and an end marker first found at `eD ≥ sD`, the result splices
the bundled block exactly over `dest[sD .. eD + |END|)`: the prefix before
`sD` and the suffix from `eD + |END|` are byte-identical to the
destination's. -/
theorem c7_managed_merge (bundled dest : List Char) :
    (indexOfFrom bundled managedBlockStart 0 = none →
      mergeManaged bundled dest = none) ∧
    (∀ s, indexOfFrom bundled managedBlockStart 0 = some s →
      indexOfFrom bundled managedBlockEnd s = none →
      mergeManaged bundled dest = none) ∧
    (∀ block, extractManagedBlock bundled = some block →
      indexOfFrom dest managedBlockStart 0 = none →
      mergeManaged bundled dest = none) ∧
    (∀ block sD, extractManagedBlock bundled = some block →
      indexOfFrom dest managedBlockStart 0 = some sD →
      indexOfFrom dest managedBlockEnd sD = none →
      mergeManaged bundled dest = none) ∧
    (∀ block sD eD, extractManagedBlock bundled = some block →
      indexOfFrom dest managedBlockStart 0 = some sD →
      indexOfFrom dest managedBlockEnd sD = some eD →
      mergeManaged bundled dest =
        some (dest.take sD ++ block ++ dest.drop (eD + managedBlockEnd.length)) ∧
      (dest.take sD ++ block ++ dest.drop (eD + managedBlockEnd.length)).take sD =
        dest.take sD ∧
      (dest.take sD ++ block ++ dest.drop (eD + managedBlockEnd.length)).drop
          (sD + block.length) =
        dest.drop (eD + managedBlockEnd.length) ∧
      isPrefixCh managedBlockStart (dest.drop sD) = true ∧
      (∀ j, j < sD → isPrefixCh managedBlockStart (dest.drop j) = false) ∧
      sD ≤ eD ∧ isPrefixCh managedBlockEnd (dest.drop eD) = true ∧
      (∀ j, sD ≤ j → j < eD → isPrefixCh managedBlockEnd (dest.drop j) = false)) := by
  refine ⟨?_, ?_, ?_, ?_, ?_⟩
  · intro h
    simp [mergeManaged, extractManagedBlock, h]
  · intro s hs hend
    simp [mergeManaged, extractManagedBlock, hs, hend]
  · intro block hb hds
    simp [mergeManaged, hb, replaceManagedBlock, hds]
  · intro block sD hb hds hde
    simp [mergeManaged, hb, replaceManagedBlock, hds, hde]
  · intro block sD eD hb hds hde
    obtain ⟨-, hpS, hminS⟩ := indexOfFrom_some dest managedBlockStart 0 sD hds
    obtain ⟨hle, hpE, hminE⟩ := indexOfFrom_some dest managedBlockEnd sD eD hde
    have hsDlt : sD < dest.length := by
      have hne := isPrefixCh_ne_nil '/' ("/ cursor-notifier:managed:start".toList)
        (dest.drop sD) hpS
      have : dest.drop sD ≠ [] := hne
      rw [← List.length_pos_iff_ne_nil] at this
      rw [List.length_drop] at this
      omega
    have htakelen : (dest.take sD).length = sD := by
      rw [List.length_take]
      omega
    refine ⟨?_, ?_, ?_, hpS, fun j hj => hminS j (Nat.zero_le j) hj, hle, hpE, hminE⟩
    · simp [mergeManaged, hb, replaceManagedBlock, hds, hde]
    · rw [List.append_assoc]
      exact take_append_self _ _ sD htakelen
    · exact drop_append_self _ _ _ (by rw [List.length_append, htakelen])

/-- C7 witness: a concrete merge, with user content around the destination's
managed block preserved and the block replaced by the bundled one. -/
theorem c7_managed_merge_witness :
    mergeManaged
        ("// cursor-notifier:managed:start\nNEW\n// cursor-notifier:managed:end".toList)
        ("before\n// cursor-notifier:managed:start\nOLD\n// cursor-notifier:managed:end\nafter".toList) =
      some (("before\n// cursor-notifier:managed:start\nOLD\n// cursor-notifier:managed:end\nafter".toList).take 7 ++
        ("// cursor-notifier:managed:start\nNEW\n// cursor-notifier:managed:end".toList) ++
        ("before\n// cursor-notifier:managed:start\nOLD\n// cursor-notifier:managed:end\nafter".toList).drop
          (44 + managedBlockEnd.length)) :=
  ((c7_managed_merge
      ("// cursor-notifier:managed:start\nNEW\n// cursor-notifier:managed:end".toList)
      ("before\n// cursor-notifier:managed:start\nOLD\n// cursor-notifier:managed:end\nafter".toList)).2.2.2.2
    ("// cursor-notifier:managed:start\nNEW\n// cursor-notifier:managed:end".toList)
    7 44 (by decide) (by decide) (by decide)).1

/-- The bundled text of the C7 counterexample: a well-formed managed block. -/
def c7Bundled : List Char :=
  "// cursor-notifier:managed:start\n// cursor-notifier:managed:end".toList

/-- The destination text of the C7 counterexample: it contains both markers,
but the end marker only before the start marker. -/
def c7Dest : List Char :=
  "// cursor-notifier:managed:end\n// cursor-notifier:managed:start".toList

set_option maxRecDepth 10000 in
/-- C7 counterexample: both texts contain the start and the end marker, yet
the merge yields `none` — the destination's only end marker precedes its
start marker, and the code searches for the end marker only from the start
marker onward, so the claim's "if both contain the markers, the merge
replaces the region" fails as stated. -/
theorem c7_merge_counterexample :
    containsSub c7Bundled managedBlockStart = true ∧
    containsSub c7Bundled managedBlockEnd = true ∧
    containsSub c7Dest managedBlockStart = true ∧
    containsSub c7Dest managedBlockEnd = true ∧
    mergeManaged c7Bundled c7Dest = none := by
  exact ⟨by decide, by decide, by decide, by decide, by decide⟩

/-- `String.lastIndexOf(c, pos)` for a single character: the greatest index
at most `pos` holding `c` (None replaces JS's -1). -/
def lastIdxLeCh (l : List Char) (c : Char) : Nat → Option Nat
  | 0 => if l.get? 0 = some c then some 0 else none
  | i + 1 => if l.get? (i + 1) = some c then some (i + 1) else lastIdxLeCh l c i

/-- The space fallback of the split loop: `lastIndexOf(" ", limit)` unless
that is `<= 0`, else the hard cut at `limit`. -/
def spaceSplitAt (r : List Char) (limit : Nat) : Nat :=
  match lastIdxLeCh r ' ' limit with
  | some i => if 0 < i then i else limit
  | none => limit

/-- The split position of one loop iteration: `lastIndexOf("\n", limit)`
unless `<= 0` (JS folds "found at 0" and "not found" together), else the
space fallback. -/
def codeSplitAt (r : List Char) (limit : Nat) : Nat :=
  match lastIdxLeCh r '\n' limit with
  | some i => if 0 < i then i else spaceSplitAt r limit
  | none => spaceSplitAt r limit

/-- `if (remaining.startsWith("\n")) remaining = remaining.slice(1)`. -/
def stripLeadNl (l : List Char) : List Char :=
  if l.head? = some '\n' then l.drop 1 else l

/-- The `while (remaining.length > limit)` loop followed by the final
trim-guarded push. `fuel` bounds the iterations; the callers pass the text
length, which suffices for every positive limit (for `limit = 0` the JS
loop does not terminate, which a total model cannot reproduce). -/
def splitLoop (limit : Nat) : Nat → List Char → List (List Char)
  | 0, r => if jsTrim r = [] then [] else [r]
  | fuel + 1, r =>
    if r.length ≤ limit then (if jsTrim r = [] then [] else [r])
    else
      r.take (codeSplitAt r limit) ::
        splitLoop limit fuel (stripLeadNl (r.drop (codeSplitAt r limit)))

/-- `splitTextByLimit`: blank text gives no chunks, text within the limit is
one chunk, longer text runs the split loop. -/
def splitTextByLimit (text : List Char) (limit : Nat) : List (List Char) :=
  if jsTrim text = [] then []
  else if text.length ≤ limit then [text]
  else splitLoop limit text.length text

/-- The chunks, with an optional removed newline between consecutive ones
and a whitespace-only dropped tail, reassemble the source text in order. -/
def SplitGlue : List (List Char) → List Char → Prop
  | [], r => jsTrim r = []
  | ch :: rest, r => ∃ sep tail, (sep = ([] : List Char) ∨ sep = ['\n']) ∧
      r = ch ++ sep ++ tail ∧ SplitGlue rest tail

/-- `i` is the greatest index at most `bound` where `c` occurs. -/
def IsLastIdxLe (r : List Char) (c : Char) (bound i : Nat) : Prop :=
  i ≤ bound ∧ r.get? i = some c ∧
    ∀ j, j < bound + 1 → i < j → r.get? j ≠ some c

/-- `c` does not occur at any index at most `bound`. -/
def NoIdxLe (r : List Char) (c : Char) (bound : Nat) : Prop :=
  ∀ j, j < bound + 1 → r.get? j ≠ some c

/-- `c` does not occur at any positive index at most `bound`. -/
def NoPosIdxLe (r : List Char) (c : Char) (bound : Nat) : Prop :=
  ∀ j, j < bound + 1 → 0 < j → r.get? j ≠ some c

/-- Modelled from the spec: the claim's split rule as stated — the last
newline at-or-before the limit, else the last space, else a hard cut at the
limit. -/
def SplitPosSpecOrig (r : List Char) (limit i : Nat) : Prop :=
  IsLastIdxLe r '\n' limit i ∨
    (NoIdxLe r '\n' limit ∧ IsLastIdxLe r ' ' limit i) ∨
    (NoIdxLe r '\n' limit ∧ NoIdxLe r ' ' limit ∧ i = limit)

/-- The amended split rule: a marker at index 0 is ignored (the code treats
`lastIndexOf` results `<= 0` as "not found"). -/
def SplitPosSpecAmended (r : List Char) (limit i : Nat) : Prop :=
  (0 < i ∧ IsLastIdxLe r '\n' limit i) ∨
    (NoPosIdxLe r '\n' limit ∧ 0 < i ∧ IsLastIdxLe r ' ' limit i) ∨
    (NoPosIdxLe r '\n' limit ∧ NoPosIdxLe r ' ' limit ∧ i = limit)

instance (r : List Char) (c : Char) (bound i : Nat) :
    Decidable (IsLastIdxLe r c bound i) := by
  unfold IsLastIdxLe
  infer_instance

instance (r : List Char) (c : Char) (bound : Nat) : Decidable (NoIdxLe r c bound) := by
  unfold NoIdxLe
  infer_instance

instance (r : List Char) (c : Char) (bound : Nat) : Decidable (NoPosIdxLe r c bound) := by
  unfold NoPosIdxLe
  infer_instance

instance (r : List Char) (limit i : Nat) : Decidable (SplitPosSpecOrig r limit i) := by
  unfold SplitPosSpecOrig
  infer_instance

instance (r : List Char) (limit i : Nat) : Decidable (SplitPosSpecAmended r limit i) := by
  unfold SplitPosSpecAmended
  infer_instance

theorem lastIdxLeCh_some (l : List Char) (c : Char) :
    ∀ pos i, lastIdxLeCh l c pos = some i →
      i ≤ pos ∧ l.get? i = some c ∧
        ∀ j, i < j → j ≤ pos → l.get? j ≠ some c := by
  intro pos
  induction pos with
  | zero =>
    intro i h
    unfold lastIdxLeCh at h
    split at h
    next hc => cases h; exact ⟨le_refl 0, hc, fun j hj1 hj2 => by omega⟩
    next => cases h
  | succ n ih =>
    intro i h
    unfold lastIdxLeCh at h
    split at h
    next hc =>
      cases h
      exact ⟨le_refl _, hc, fun j hj1 hj2 => by omega⟩
    next hc =>
      obtain ⟨h1, h2, h3⟩ := ih i h
      refine ⟨by omega, h2, ?_⟩
      intro j hj1 hj2
      by_cases hje : j = n + 1
      · subst hje
        exact hc
      · exact h3 j hj1 (by omega)

theorem lastIdxLeCh_none (l : List Char) (c : Char) :
    ∀ pos, lastIdxLeCh l c pos = none →
      ∀ j, j ≤ pos → l.get? j ≠ some c := by
  intro pos
  induction pos with
  | zero =>
    intro h j hj
    unfold lastIdxLeCh at h
    split at h
    next => cases h
    next hc =>
      have hj0 : j = 0 := by omega
      subst hj0
      exact hc
  | succ n ih =>
    intro h j hj
    unfold lastIdxLeCh at h
    split at h
    next => cases h
    next hc =>
      by_cases hje : j = n + 1
      · subst hje
        exact hc
      · exact ih h j (by omega)

theorem codeSplitAt_le (r : List Char) (limit : Nat) : codeSplitAt r limit ≤ limit := by
  unfold codeSplitAt spaceSplitAt
  cases hn : lastIdxLeCh r '\n' limit with
  | some i =>
    obtain ⟨h1, -, -⟩ := lastIdxLeCh_some r '\n' limit i hn
    by_cases hi : 0 < i
    · simpa [hi] using h1
    · simp only [hi, if_false]
      cases hs : lastIdxLeCh r ' ' limit with
      | some k =>
        obtain ⟨hk, -, -⟩ := lastIdxLeCh_some r ' ' limit k hs
        by_cases hk0 : 0 < k
        · simpa [hk0] using hk
        · simp [hk0]
      | none => simp
  | none =>
    cases hs : lastIdxLeCh r ' ' limit with
    | some k =>
      obtain ⟨hk, -, -⟩ := lastIdxLeCh_some r ' ' limit k hs
      by_cases hk0 : 0 < k
      · simpa [hk0] using hk
      · simp [hk0]
    | none => simp

theorem codeSplitAt_pos (r : List Char) (limit : Nat) (hlim : 0 < limit) :
    0 < codeSplitAt r limit := by
  unfold codeSplitAt spaceSplitAt
  cases hn : lastIdxLeCh r '\n' limit with
  | some i =>
    by_cases hi : 0 < i
    · simpa [hi] using hi
    · simp only [hi, if_false]
      cases hs : lastIdxLeCh r ' ' limit with
      | some k =>
        by_cases hk0 : 0 < k
        · simpa [hk0] using hk0
        · simpa [hk0] using hlim
      | none => simpa using hlim
  | none =>
    cases hs : lastIdxLeCh r ' ' limit with
    | some k =>
      by_cases hk0 : 0 < k
      · simpa [hk0] using hk0
      · simpa [hk0] using hlim
    | none => simpa using hlim

theorem spaceSplitAt_spec (r : List Char) (limit : Nat) (hlim : 0 < limit)
    (hnp : NoPosIdxLe r '\n' limit) :
    SplitPosSpecAmended r limit (spaceSplitAt r limit) := by
  unfold spaceSplitAt
  cases hs : lastIdxLeCh r ' ' limit with
  | some k =>
    show SplitPosSpecAmended r limit (if 0 < k then k else limit)
    obtain ⟨hk1, hk2, hk3⟩ := lastIdxLeCh_some r ' ' limit k hs
    by_cases hk0 : 0 < k
    · rw [if_pos hk0]
      exact Or.inr (Or.inl ⟨hnp, hk0, hk1, hk2, fun j hj1 hj2 => hk3 j hj2 (by omega)⟩)
    · have hk00 : k = 0 := by omega
      subst hk00
      rw [if_neg hk0]
      refine Or.inr (Or.inr ⟨hnp, ?_, rfl⟩)
      intro j hj1 hj2
      exact hk3 j (by omega) (by omega)
  | none =>
    show SplitPosSpecAmended r limit limit
    refine Or.inr (Or.inr ⟨hnp, ?_, rfl⟩)
    intro j hj1 hj2
    exact lastIdxLeCh_none r ' ' limit hs j (by omega)

theorem codeSplitAt_spec (r : List Char) (limit : Nat) (hlim : 0 < limit) :
    SplitPosSpecAmended r limit (codeSplitAt r limit) := by
  unfold codeSplitAt
  cases hn : lastIdxLeCh r '\n' limit with
  | some i =>
    show SplitPosSpecAmended r limit (if 0 < i then i else spaceSplitAt r limit)
    obtain ⟨h1, h2, h3⟩ := lastIdxLeCh_some r '\n' limit i hn
    by_cases hi : 0 < i
    · rw [if_pos hi]
      exact Or.inl ⟨hi, h1, h2, fun j hj1 hj2 => h3 j hj2 (by omega)⟩
    · have hi0 : i = 0 := by omega
      subst hi0
      rw [if_neg hi]
      exact spaceSplitAt_spec r limit hlim (fun j hj1 hj2 => h3 j hj2 (by omega))
  | none =>
    show SplitPosSpecAmended r limit (spaceSplitAt r limit)
    exact spaceSplitAt_spec r limit hlim
      (fun j hj1 hj2 => lastIdxLeCh_none r '\n' limit hn j (by omega))

theorem stripLeadNl_drop_lt (r : List Char) (limit : Nat) (hlim : 0 < limit)
    (hgt : limit < r.length) :
    (stripLeadNl (r.drop (codeSplitAt r limit))).length < r.length := by
  have h3 := codeSplitAt_pos r limit hlim
  have h4 : (stripLeadNl (r.drop (codeSplitAt r limit))).length ≤
      (r.drop (codeSplitAt r limit)).length := by
    unfold stripLeadNl
    split
    · rw [List.length_drop, List.length_drop]
      omega
    · exact le_refl _
  have h5 : (r.drop (codeSplitAt r limit)).length = r.length - codeSplitAt r limit :=
    List.length_drop ..
  omega

theorem splitLoop_length_le (limit : Nat) (hlim : 0 < limit) :
    ∀ fuel r, r.length ≤ fuel →
      ∀ ch ∈ splitLoop limit fuel r, ch.length ≤ limit := by
  intro fuel
  induction fuel with
  | zero =>
    intro r hr ch hch
    have hnil : r = [] := List.length_eq_zero.mp (by omega)
    subst hnil
    simp [splitLoop, jsTrim] at hch
  | succ n ih =>
    intro r hr ch hch
    rw [splitLoop] at hch
    by_cases hle : r.length ≤ limit
    · rw [if_pos hle] at hch
      by_cases htrim : jsTrim r = []
      · simp [htrim] at hch
      · rw [if_neg htrim] at hch
        rw [List.mem_singleton] at hch
        subst hch
        exact hle
    · rw [if_neg hle] at hch
      rcases List.mem_cons.mp hch with h1 | h1
      · subst h1
        exact le_trans (List.length_take_le ..) (codeSplitAt_le r limit)
      · refine ih (stripLeadNl (r.drop (codeSplitAt r limit))) ?_ ch h1
        have := stripLeadNl_drop_lt r limit hlim (by omega)
        omega

theorem splitLoop_glue (limit : Nat) (hlim : 0 < limit) :
    ∀ fuel r, r.length ≤ fuel → SplitGlue (splitLoop limit fuel r) r := by
  intro fuel
  induction fuel with
  | zero =>
    intro r hr
    have hnil : r = [] := List.length_eq_zero.mp (by omega)
    subst hnil
    show SplitGlue (if jsTrim ([] : List Char) = [] then [] else [[]]) []
    have h0 : jsTrim ([] : List Char) = [] := rfl
    rw [if_pos h0]
    exact h0
  | succ n ih =>
    intro r hr
    rw [splitLoop]
    by_cases hle : r.length ≤ limit
    · rw [if_pos hle]
      by_cases htrim : jsTrim r = []
      · rw [if_pos htrim]
        exact htrim
      · rw [if_neg htrim]
        exact ⟨[], [], Or.inl rfl, by simp, rfl⟩
    · rw [if_neg hle]
      have hrest : (stripLeadNl (r.drop (codeSplitAt r limit))).length ≤ n := by
        have := stripLeadNl_drop_lt r limit hlim (by omega)
        omega
      by_cases hnl : (r.drop (codeSplitAt r limit)).head? = some '\n'
      · have hdecomp : r.drop (codeSplitAt r limit) =
            '\n' :: (r.drop (codeSplitAt r limit)).tail := by
          cases hd : r.drop (codeSplitAt r limit) with
          | nil => rw [hd] at hnl; simp at hnl
          | cons x xs =>
            rw [hd] at hnl
            simp at hnl
            subst hnl
            rfl
        have hstrip : stripLeadNl (r.drop (codeSplitAt r limit)) =
            (r.drop (codeSplitAt r limit)).tail := by
          unfold stripLeadNl
          rw [if_pos hnl, List.drop_one]
        refine ⟨['\n'], stripLeadNl (r.drop (codeSplitAt r limit)), Or.inr rfl, ?_,
          ih _ hrest⟩
        conv_lhs => rw [← List.take_append_drop (codeSplitAt r limit) r]
        rw [hstrip, hdecomp]
        simp
      · have hstrip : stripLeadNl (r.drop (codeSplitAt r limit)) =
            r.drop (codeSplitAt r limit) := by
          unfold stripLeadNl
          rw [if_neg hnl]
        refine ⟨[], stripLeadNl (r.drop (codeSplitAt r limit)), Or.inl rfl, ?_,
          ih _ hrest⟩
        rw [hstrip]
        simp [List.take_append_drop]

/-- C6 amended: for text longer than a positive limit, every chunk is at
most `limit` long, the chunks reassemble the text in order up to a removed
newline at each split and a whitespace-only dropped tail, and each
iteration's split position obeys the amended rule: the last newline at a
positive index at-or-before the limit, else the last space at a positive
index, else the hard cut at the limit. -/
theorem c6_split_amended (text : List Char) (limit : Nat) (hlim : 0 < limit)
    (hlong : limit < text.length) :
    (∀ ch ∈ splitTextByLimit text limit, ch.length ≤ limit) ∧
    SplitGlue (splitTextByLimit text limit) text ∧
    (∀ r : List Char, limit < r.length →
      SplitPosSpecAmended r limit (codeSplitAt r limit) ∧
      ∀ fuel, splitLoop limit (fuel + 1) r =
        r.take (codeSplitAt r limit) ::
          splitLoop limit fuel (stripLeadNl (r.drop (codeSplitAt r limit)))) := by
  refine ⟨?_, ?_, ?_⟩
  · intro ch hch
    unfold splitTextByLimit at hch
    by_cases htrim : jsTrim text = []
    · simp [htrim] at hch
    · rw [if_neg htrim, if_neg (by omega)] at hch
      exact splitLoop_length_le limit hlim text.length text (le_refl _) ch hch
  · unfold splitTextByLimit
    by_cases htrim : jsTrim text = []
    · rw [if_pos htrim]
      exact htrim
    · rw [if_neg htrim, if_neg (by omega)]
      exact splitLoop_glue limit hlim text.length text (le_refl _)
  · intro r hr
    refine ⟨codeSplitAt_spec r limit hlim, ?_⟩
    intro fuel
    rw [splitLoop, if_neg (by omega)]

set_option maxRecDepth 2000 in
/-- C6 counterexample: on `"\nabcd"` with limit 2 the last newline
at-or-before the limit is at index 0, but the code splits at the hard cut 2
(first chunk `"\na"`), not at the newline — the claim's split rule, taken as
stated, fails at whitespace sitting at index 0. -/
theorem c6_split_rule_counterexample :
    IsLastIdxLe ("\nabcd".toList) '\n' 2 0 ∧
    codeSplitAt ("\nabcd".toList) 2 = 2 ∧
    (splitTextByLimit ("\nabcd".toList) 2).head? = some ['\n', 'a'] ∧
    ¬SplitPosSpecOrig ("\nabcd".toList) 2 (codeSplitAt ("\nabcd".toList) 2) := by
  refine ⟨by decide, by decide, by decide, ?_⟩
  intro hcontra
  rcases hcontra with h | ⟨h1, h2⟩ | ⟨h1, h2, h3⟩
  · exact absurd h (by decide)
  · exact absurd h1 (by decide)
  · exact absurd h1 (by decide)

/-- C6 witness: the amended properties at `"ab cd"` with limit 3. -/
theorem c6_split_amended_witness :
    0 < 3 ∧ 3 < ("ab cd".toList).length ∧
    ((∀ ch ∈ splitTextByLimit ("ab cd".toList) 3, ch.length ≤ 3) ∧
      SplitGlue (splitTextByLimit ("ab cd".toList) 3) ("ab cd".toList) ∧
      (∀ r : List Char, 3 < r.length →
        SplitPosSpecAmended r 3 (codeSplitAt r 3) ∧
        ∀ fuel, splitLoop 3 (fuel + 1) r =
          r.take (codeSplitAt r 3) ::
            splitLoop 3 fuel (stripLeadNl (r.drop (codeSplitAt r 3))))) :=
  ⟨by decide, by decide, c6_split_amended ("ab cd".toList) 3 (by decide) (by decide)⟩

/-- The HTML entity `&amp;` as code units. -/
def ampEnt : List Char := ['&', 'a', 'm', 'p', ';']

/-- The HTML entity `&lt;`. -/
def ltEnt : List Char := ['&', 'l', 't', ';']

/-- The HTML entity `&gt;`. -/
def gtEnt : List Char := ['&', 'g', 't', ';']

/-- The HTML entity `&quot;`. -/
def quotEnt : List Char := ['&', 'q', 'u', 'o', 't', ';']

/-- JS `String.prototype.replace(new RegExp(pat, "g"), rep)` for a literal
pattern: scan left to right, replace non-overlapping occurrences, never
rescanning the replacement text. -/
def replaceAllSub (pat rep : List Char) : List Char → List Char
  | [] => []
  | c :: rest =>
    if h : 0 < pat.length ∧ isPrefixCh pat (c :: rest) = true then
      rep ++ replaceAllSub pat rep ((c :: rest).drop pat.length)
    else
      c :: replaceAllSub pat rep rest
termination_by l => l.length
decreasing_by
  · have h1 := h.1
    rw [List.length_drop]
    simp only [List.length_cons]
    omega
  · simp only [List.length_cons]
    omega

/-- The tag removal `replace(/<\/?[^>]+>/g, "")`: at each `<`, the regex
matches iff a `>` follows with at least one character in between (the
optional `/` is subsumed by `[^>]+`), consuming through the first such `>`;
otherwise the scan advances one character. -/
def removeTags : List Char → List Char
  | [] => []
  | c :: rest =>
    if c = '<' then
      match rest.findIdx? (fun x => x = '>') with
      | some j =>
        if 1 ≤ j then removeTags (rest.drop (j + 1)) else '<' :: removeTags rest
      | none => '<' :: removeTags rest
    else c :: removeTags rest
termination_by l => l.length
decreasing_by
  all_goals first
    | (rw [List.length_drop]; simp only [List.length_cons]; omega)
    | (simp only [List.length_cons]; omega)

/-- `escapeTelegramHtml`: `&` → `&amp;`, then `<` → `&lt;`, then
`>` → `&gt;`. -/
def escapeTelegramHtml (l : List Char) : List Char :=
  replaceAllSub ['>'] gtEnt
    (replaceAllSub ['<'] ltEnt
      (replaceAllSub ['&'] ampEnt l))

/-- `stripTelegramHtml`: remove tags, then decode `&quot;`, `&gt;`, `&lt;`,
`&amp;` in that order. -/
def stripTelegramHtml (l : List Char) : List Char :=
  replaceAllSub ampEnt ['&']
    (replaceAllSub ltEnt ['<']
      (replaceAllSub gtEnt ['>']
        (replaceAllSub quotEnt ['"'] (removeTags l))))

/-- Concatenation of a per-character expansion (the normal form of the
sequential single-character escapes). -/
def mapConcat (f : Char → List Char) : List Char → List Char
  | [] => []
  | c :: rest => f c ++ mapConcat f rest

/-- Per-character effect of the `&` escape alone. -/
def escAmp (c : Char) : List Char := if c = '&' then ampEnt else [c]

/-- Per-character effect after the `&` and `<` escapes. -/
def escAmpLt (c : Char) : List Char :=
  if c = '&' then ampEnt else if c = '<' then ltEnt else [c]

/-- Per-character effect of the full escape. -/
def escFull (c : Char) : List Char :=
  if c = '&' then ampEnt else if c = '<' then ltEnt else
    if c = '>' then gtEnt else [c]

/-- Image after decoding `&gt;` back. -/
def escNoGt (c : Char) : List Char :=
  if c = '&' then ampEnt else if c = '<' then ltEnt else [c]

/-- Image after decoding `&gt;` and `&lt;` back. -/
def escNoLtGt (c : Char) : List Char := if c = '&' then ampEnt else [c]

theorem replaceAllSub_nil (pat rep : List Char) : replaceAllSub pat rep [] = [] := by
  rw [replaceAllSub]

theorem replaceAllSub_cons_ne (pat rep : List Char) (c : Char) (rest : List Char)
    (hne : isPrefixCh pat (c :: rest) = false) :
    replaceAllSub pat rep (c :: rest) = c :: replaceAllSub pat rep rest := by
  rw [replaceAllSub]
  rw [dif_neg]
  intro hcontra
  rw [hcontra.2] at hne
  cases hne

theorem replaceAllSub_cons_match (pat rep : List Char) (c : Char) (rest : List Char)
    (hp : 0 < pat.length) (hm : isPrefixCh pat (c :: rest) = true) :
    replaceAllSub pat rep (c :: rest) =
      rep ++ replaceAllSub pat rep ((c :: rest).drop pat.length) := by
  rw [replaceAllSub]
  rw [dif_pos ⟨hp, hm⟩]

theorem isPrefixCh_self_append (pat X : List Char) :
    isPrefixCh pat (pat ++ X) = true := by
  induction pat with
  | nil => rfl
  | cons p ps ih => simp [isPrefixCh, ih]

theorem isPrefixCh_head_ne (p c : Char) (ps l : List Char) (h : ¬p = c) :
    isPrefixCh (p :: ps) (c :: l) = false := by
  simp [isPrefixCh, h]

theorem replaceAllSub_step (p : Char) (ps rep : List Char) (c : Char) (rest : List Char)
    (h : ¬p = c) :
    replaceAllSub (p :: ps) rep (c :: rest) = c :: replaceAllSub (p :: ps) rep rest :=
  replaceAllSub_cons_ne _ _ _ _ (isPrefixCh_head_ne _ _ _ _ h)

theorem replaceAllSub_step2 (p q : Char) (ps rep : List Char) (c d : Char)
    (rest : List Char) (hp : p = c) (h : ¬q = d) :
    replaceAllSub (p :: q :: ps) rep (c :: d :: rest) =
      c :: replaceAllSub (p :: q :: ps) rep (d :: rest) := by
  apply replaceAllSub_cons_ne
  simp [isPrefixCh, hp, h]

theorem escape_amp_pass (l : List Char) :
    replaceAllSub ['&'] ampEnt l = mapConcat escAmp l := by
  induction l with
  | nil => rw [replaceAllSub_nil]; rfl
  | cons c rest ih =>
    by_cases hc : c = '&'
    · subst hc
      rw [replaceAllSub_cons_match _ _ _ _ (by decide) (by simp [isPrefixCh])]
      show ampEnt ++ replaceAllSub ['&'] ampEnt rest = mapConcat escAmp ('&' :: rest)
      rw [ih]
      simp [mapConcat, escAmp]
    · rw [replaceAllSub_step _ _ _ _ _ (fun h => hc h.symm), ih]
      show c :: mapConcat escAmp rest = mapConcat escAmp (c :: rest)
      simp [mapConcat, escAmp, hc]

theorem escape_lt_pass (l : List Char) :
    replaceAllSub ['<'] ltEnt (mapConcat escAmp l) = mapConcat escAmpLt l := by
  induction l with
  | nil => rw [show mapConcat escAmp [] = [] from rfl, replaceAllSub_nil]; rfl
  | cons c rest ih =>
    by_cases hc : c = '&'
    · subst hc
      show replaceAllSub ['<'] ltEnt
          ('&' :: 'a' :: 'm' :: 'p' :: ';' :: mapConcat escAmp rest) =
        mapConcat escAmpLt ('&' :: rest)
      rw [replaceAllSub_step _ _ _ _ _ (by decide), replaceAllSub_step _ _ _ _ _ (by decide),
        replaceAllSub_step _ _ _ _ _ (by decide), replaceAllSub_step _ _ _ _ _ (by decide),
        replaceAllSub_step _ _ _ _ _ (by decide), ih]
      simp [mapConcat, escAmpLt, ampEnt]
    · by_cases hlt : c = '<'
      · subst hlt
        show replaceAllSub ['<'] ltEnt ('<' :: mapConcat escAmp rest) =
          mapConcat escAmpLt ('<' :: rest)
        rw [replaceAllSub_cons_match _ _ _ _ (by decide) (by simp [isPrefixCh])]
        show ltEnt ++ replaceAllSub ['<'] ltEnt (mapConcat escAmp rest) =
          mapConcat escAmpLt ('<' :: rest)
        rw [ih]
        simp [mapConcat, escAmpLt]
      · show replaceAllSub ['<'] ltEnt (escAmp c ++ mapConcat escAmp rest) =
          mapConcat escAmpLt (c :: rest)
        rw [show escAmp c = [c] by simp [escAmp, hc]]
        rw [show ([c] ++ mapConcat escAmp rest) = c :: mapConcat escAmp rest from rfl]
        rw [replaceAllSub_step _ _ _ _ _ (fun h => hlt h.symm), ih]
        simp [mapConcat, escAmpLt, hc, hlt]

theorem escape_gt_pass (l : List Char) :
    replaceAllSub ['>'] gtEnt (mapConcat escAmpLt l) = mapConcat escFull l := by
  induction l with
  | nil => rw [show mapConcat escAmpLt [] = [] from rfl, replaceAllSub_nil]; rfl
  | cons c rest ih =>
    by_cases hc : c = '&'
    · subst hc
      show replaceAllSub ['>'] gtEnt
          ('&' :: 'a' :: 'm' :: 'p' :: ';' :: mapConcat escAmpLt rest) =
        mapConcat escFull ('&' :: rest)
      rw [replaceAllSub_step _ _ _ _ _ (by decide), replaceAllSub_step _ _ _ _ _ (by decide),
        replaceAllSub_step _ _ _ _ _ (by decide), replaceAllSub_step _ _ _ _ _ (by decide),
        replaceAllSub_step _ _ _ _ _ (by decide), ih]
      simp [mapConcat, escFull, ampEnt]
    · by_cases hlt : c = '<'
      · subst hlt
        show replaceAllSub ['>'] gtEnt
            ('&' :: 'l' :: 't' :: ';' :: mapConcat escAmpLt rest) =
          mapConcat escFull ('<' :: rest)
        rw [replaceAllSub_step _ _ _ _ _ (by decide), replaceAllSub_step _ _ _ _ _ (by decide),
          replaceAllSub_step _ _ _ _ _ (by decide), replaceAllSub_step _ _ _ _ _ (by decide),
          ih]
        simp [mapConcat, escFull, ltEnt]
      · by_cases hgt : c = '>'
        · subst hgt
          show replaceAllSub ['>'] gtEnt ('>' :: mapConcat escAmpLt rest) =
            mapConcat escFull ('>' :: rest)
          rw [replaceAllSub_cons_match _ _ _ _ (by decide) (by simp [isPrefixCh])]
          show gtEnt ++ replaceAllSub ['>'] gtEnt (mapConcat escAmpLt rest) =
            mapConcat escFull ('>' :: rest)
          rw [ih]
          simp [mapConcat, escFull]
        · show replaceAllSub ['>'] gtEnt (escAmpLt c ++ mapConcat escAmpLt rest) =
            mapConcat escFull (c :: rest)
          rw [show escAmpLt c = [c] by simp [escAmpLt, hc, hlt]]
          rw [show ([c] ++ mapConcat escAmpLt rest) = c :: mapConcat escAmpLt rest from rfl]
          rw [replaceAllSub_step _ _ _ _ _ (fun h => hgt h.symm), ih]
          simp [mapConcat, escFull, hc, hlt, hgt]

theorem escape_eq_mapConcat (l : List Char) :
    escapeTelegramHtml l = mapConcat escFull l := by
  unfold escapeTelegramHtml
  rw [escape_amp_pass, escape_lt_pass, escape_gt_pass]

theorem removeTags_no_lt (l : List Char) (h : ∀ c ∈ l, ¬c = '<') :
    removeTags l = l := by
  induction l with
  | nil => rw [removeTags]
  | cons c rest ih =>
    rw [removeTags]
    rw [if_neg (h c (List.mem_cons_self c rest))]
    rw [ih (fun x hx => h x (List.mem_cons_of_mem c hx))]

theorem escFull_no_lt (x c : Char) (h : c ∈ escFull x) : ¬c = '<' := by
  intro he
  subst he
  unfold escFull at h
  by_cases hx1 : x = '&'
  · rw [if_pos hx1] at h
    exact absurd h (by decide)
  · rw [if_neg hx1] at h
    by_cases hx2 : x = '<'
    · rw [if_pos hx2] at h
      exact absurd h (by decide)
    · rw [if_neg hx2] at h
      by_cases hx3 : x = '>'
      · rw [if_pos hx3] at h
        exact absurd h (by decide)
      · rw [if_neg hx3] at h
        rw [List.mem_singleton] at h
        exact hx2 h.symm

theorem mapConcat_escFull_no_lt (l : List Char) :
    ∀ c ∈ mapConcat escFull l, ¬c = '<' := by
  induction l with
  | nil => intro c hc; cases hc
  | cons x rest ih =>
    intro c hc
    rcases List.mem_append.mp hc with h1 | h1
    · exact escFull_no_lt x c h1
    · exact ih c h1

theorem strip_tags_pass (l : List Char) :
    removeTags (mapConcat escFull l) = mapConcat escFull l :=
  removeTags_no_lt _ (mapConcat_escFull_no_lt l)

theorem strip_quot_pass (l : List Char) :
    replaceAllSub quotEnt ['"'] (mapConcat escFull l) = mapConcat escFull l := by
  induction l with
  | nil => rw [show mapConcat escFull [] = [] from rfl, replaceAllSub_nil]
  | cons c rest ih =>
    by_cases hc : c = '&'
    · subst hc
      show replaceAllSub quotEnt ['"']
          ('&' :: 'a' :: 'm' :: 'p' :: ';' :: mapConcat escFull rest) =
        '&' :: 'a' :: 'm' :: 'p' :: ';' :: mapConcat escFull rest
      rw [replaceAllSub_cons_ne _ _ _ _ (by simp [quotEnt, isPrefixCh]),
        replaceAllSub_cons_ne _ _ _ _ (by simp [quotEnt, isPrefixCh]),
        replaceAllSub_cons_ne _ _ _ _ (by simp [quotEnt, isPrefixCh]),
        replaceAllSub_cons_ne _ _ _ _ (by simp [quotEnt, isPrefixCh]),
        replaceAllSub_cons_ne _ _ _ _ (by simp [quotEnt, isPrefixCh]), ih]
    · by_cases hlt : c = '<'
      · subst hlt
        show replaceAllSub quotEnt ['"']
            ('&' :: 'l' :: 't' :: ';' :: mapConcat escFull rest) =
          '&' :: 'l' :: 't' :: ';' :: mapConcat escFull rest
        rw [replaceAllSub_cons_ne _ _ _ _ (by simp [quotEnt, isPrefixCh]),
          replaceAllSub_cons_ne _ _ _ _ (by simp [quotEnt, isPrefixCh]),
          replaceAllSub_cons_ne _ _ _ _ (by simp [quotEnt, isPrefixCh]),
          replaceAllSub_cons_ne _ _ _ _ (by simp [quotEnt, isPrefixCh]), ih]
      · by_cases hgt : c = '>'
        · subst hgt
          show replaceAllSub quotEnt ['"']
              ('&' :: 'g' :: 't' :: ';' :: mapConcat escFull rest) =
            '&' :: 'g' :: 't' :: ';' :: mapConcat escFull rest
          rw [replaceAllSub_cons_ne _ _ _ _ (by simp [quotEnt, isPrefixCh]),
            replaceAllSub_cons_ne _ _ _ _ (by simp [quotEnt, isPrefixCh]),
            replaceAllSub_cons_ne _ _ _ _ (by simp [quotEnt, isPrefixCh]),
            replaceAllSub_cons_ne _ _ _ _ (by simp [quotEnt, isPrefixCh]), ih]
        · show replaceAllSub quotEnt ['"'] (escFull c ++ mapConcat escFull rest) =
            escFull c ++ mapConcat escFull rest
          rw [show escFull c = [c] by simp [escFull, hc, hlt, hgt]]
          rw [show ([c] ++ mapConcat escFull rest) = c :: mapConcat escFull rest from rfl]
          rw [replaceAllSub_cons_ne _ _ _ _
            (by rw [show quotEnt = '&' :: ['q', 'u', 'o', 't', ';'] from rfl]
                exact isPrefixCh_head_ne _ _ _ _ (fun h => hc h.symm)), ih]

theorem strip_gt_pass (l : List Char) :
    replaceAllSub gtEnt ['>'] (mapConcat escFull l) = mapConcat escNoGt l := by
  induction l with
  | nil => rw [show mapConcat escFull [] = [] from rfl, replaceAllSub_nil]; rfl
  | cons c rest ih =>
    by_cases hc : c = '&'
    · subst hc
      show replaceAllSub gtEnt ['>']
          ('&' :: 'a' :: 'm' :: 'p' :: ';' :: mapConcat escFull rest) =
        mapConcat escNoGt ('&' :: rest)
      rw [replaceAllSub_cons_ne _ _ _ _ (by simp [gtEnt, isPrefixCh]),
        replaceAllSub_cons_ne _ _ _ _ (by simp [gtEnt, isPrefixCh]),
        replaceAllSub_cons_ne _ _ _ _ (by simp [gtEnt, isPrefixCh]),
        replaceAllSub_cons_ne _ _ _ _ (by simp [gtEnt, isPrefixCh]),
        replaceAllSub_cons_ne _ _ _ _ (by simp [gtEnt, isPrefixCh]), ih]
      simp [mapConcat, escNoGt, ampEnt]
    · by_cases hlt : c = '<'
      · subst hlt
        show replaceAllSub gtEnt ['>']
            ('&' :: 'l' :: 't' :: ';' :: mapConcat escFull rest) =
          mapConcat escNoGt ('<' :: rest)
        rw [replaceAllSub_cons_ne _ _ _ _ (by simp [gtEnt, isPrefixCh]),
          replaceAllSub_cons_ne _ _ _ _ (by simp [gtEnt, isPrefixCh]),
          replaceAllSub_cons_ne _ _ _ _ (by simp [gtEnt, isPrefixCh]),
          replaceAllSub_cons_ne _ _ _ _ (by simp [gtEnt, isPrefixCh]), ih]
        simp [mapConcat, escNoGt, ltEnt]
      · by_cases hgt : c = '>'
        · subst hgt
          have hm : isPrefixCh gtEnt
              ('&' :: 'g' :: 't' :: ';' :: mapConcat escFull rest) = true :=
            isPrefixCh_self_append gtEnt (mapConcat escFull rest)
          show replaceAllSub gtEnt ['>']
              ('&' :: 'g' :: 't' :: ';' :: mapConcat escFull rest) =
            mapConcat escNoGt ('>' :: rest)
          rw [replaceAllSub_cons_match gtEnt ['>'] '&'
            ('g' :: 't' :: ';' :: mapConcat escFull rest) (by decide) hm]
          show ['>'] ++ replaceAllSub gtEnt ['>'] (mapConcat escFull rest) =
            mapConcat escNoGt ('>' :: rest)
          rw [ih]
          simp [mapConcat, escNoGt]
        · show replaceAllSub gtEnt ['>'] (escFull c ++ mapConcat escFull rest) =
            mapConcat escNoGt (c :: rest)
          rw [show escFull c = [c] by simp [escFull, hc, hlt, hgt]]
          rw [show ([c] ++ mapConcat escFull rest) = c :: mapConcat escFull rest from rfl]
          rw [replaceAllSub_cons_ne _ _ _ _
            (by rw [show gtEnt = '&' :: ['g', 't', ';'] from rfl]
                exact isPrefixCh_head_ne _ _ _ _ (fun h => hc h.symm)), ih]
          simp [mapConcat, escNoGt, hc, hlt, hgt]

theorem strip_lt_pass (l : List Char) :
    replaceAllSub ltEnt ['<'] (mapConcat escNoGt l) = mapConcat escNoLtGt l := by
  induction l with
  | nil => rw [show mapConcat escNoGt [] = [] from rfl, replaceAllSub_nil]; rfl
  | cons c rest ih =>
    by_cases hc : c = '&'
    · subst hc
      show replaceAllSub ltEnt ['<']
          ('&' :: 'a' :: 'm' :: 'p' :: ';' :: mapConcat escNoGt rest) =
        mapConcat escNoLtGt ('&' :: rest)
      rw [replaceAllSub_cons_ne _ _ _ _ (by simp [ltEnt, isPrefixCh]),
        replaceAllSub_cons_ne _ _ _ _ (by simp [ltEnt, isPrefixCh]),
        replaceAllSub_cons_ne _ _ _ _ (by simp [ltEnt, isPrefixCh]),
        replaceAllSub_cons_ne _ _ _ _ (by simp [ltEnt, isPrefixCh]),
        replaceAllSub_cons_ne _ _ _ _ (by simp [ltEnt, isPrefixCh]), ih]
      simp [mapConcat, escNoLtGt, ampEnt]
    · by_cases hlt : c = '<'
      · subst hlt
        have hm : isPrefixCh ltEnt
            ('&' :: 'l' :: 't' :: ';' :: mapConcat escNoGt rest) = true :=
          isPrefixCh_self_append ltEnt (mapConcat escNoGt rest)
        show replaceAllSub ltEnt ['<']
            ('&' :: 'l' :: 't' :: ';' :: mapConcat escNoGt rest) =
          mapConcat escNoLtGt ('<' :: rest)
        rw [replaceAllSub_cons_match ltEnt ['<'] '&'
          ('l' :: 't' :: ';' :: mapConcat escNoGt rest) (by decide) hm]
        show ['<'] ++ replaceAllSub ltEnt ['<'] (mapConcat escNoGt rest) =
          mapConcat escNoLtGt ('<' :: rest)
        rw [ih]
        simp [mapConcat, escNoLtGt]
      · show replaceAllSub ltEnt ['<'] (escNoGt c ++ mapConcat escNoGt rest) =
          mapConcat escNoLtGt (c :: rest)
        rw [show escNoGt c = [c] by simp [escNoGt, hc, hlt]]
        rw [show ([c] ++ mapConcat escNoGt rest) = c :: mapConcat escNoGt rest from rfl]
        rw [replaceAllSub_cons_ne _ _ _ _
          (by rw [show ltEnt = '&' :: ['l', 't', ';'] from rfl]
              exact isPrefixCh_head_ne _ _ _ _ (fun h => hc h.symm)), ih]
        simp [mapConcat, escNoLtGt, hc, hlt]

theorem strip_amp_pass (l : List Char) :
    replaceAllSub ampEnt ['&'] (mapConcat escNoLtGt l) = l := by
  induction l with
  | nil => rw [show mapConcat escNoLtGt [] = [] from rfl, replaceAllSub_nil]
  | cons c rest ih =>
    by_cases hc : c = '&'
    · subst hc
      have hm : isPrefixCh ampEnt
          ('&' :: 'a' :: 'm' :: 'p' :: ';' :: mapConcat escNoLtGt rest) = true :=
        isPrefixCh_self_append ampEnt (mapConcat escNoLtGt rest)
      show replaceAllSub ampEnt ['&']
          ('&' :: 'a' :: 'm' :: 'p' :: ';' :: mapConcat escNoLtGt rest) = '&' :: rest
      rw [replaceAllSub_cons_match ampEnt ['&'] '&'
        ('a' :: 'm' :: 'p' :: ';' :: mapConcat escNoLtGt rest) (by decide) hm]
      show ['&'] ++ replaceAllSub ampEnt ['&'] (mapConcat escNoLtGt rest) = '&' :: rest
      rw [ih]
      rfl
    · show replaceAllSub ampEnt ['&'] (escNoLtGt c ++ mapConcat escNoLtGt rest) =
        c :: rest
      rw [show escNoLtGt c = [c] by simp [escNoLtGt, hc]]
      rw [show ([c] ++ mapConcat escNoLtGt rest) = c :: mapConcat escNoLtGt rest from rfl]
      rw [replaceAllSub_cons_ne _ _ _ _
        (by rw [show ampEnt = '&' :: ['a', 'm', 'p', ';'] from rfl]
            exact isPrefixCh_head_ne _ _ _ _ (fun h => hc h.symm)), ih]

/-- C10: the plain-text fallback exactly inverts the HTML escaping — the
escaped text contains no angle brackets, so tag removal deletes nothing, the
`&quot;` decoding never fires, and the `&gt;`, `&lt;`, `&amp;` decodings
undo the encodings in order. -/
theorem c10_strip_escape_id (l : List Char) :
    stripTelegramHtml (escapeTelegramHtml l) = l := by
  rw [escape_eq_mapConcat]
  unfold stripTelegramHtml
  rw [strip_tags_pass, strip_quot_pass, strip_gt_pass, strip_lt_pass, strip_amp_pass]
